import Mathlib

set_option maxHeartbeats 1000000

/-!
Verification of the arena-indexed computation graph (`comp_graph3.rs`).

The embedding models the Rust code directly:
* `Node` / `CompGraph` mirror the structs; `NodeId` is a plain index.
* Rust panics (`expect`, `unreachable!`, slice indexing) are modelled as
  `Except.error (EvalErr.panic msg)` with the source's panic messages.
* `calculate_node` mirrors the recursive evaluator, including the
  `split_at_mut` discipline: the recursive call only sees the prefix
  `head.take i` of the arena.  A `fuel` parameter makes the recursion
  structurally terminating; fuel `nodes.length + 1` is proved sufficient.
* Evaluation additionally returns a ghost trace: the list of node ids whose
  stored operation was invoked, in invocation order.  The trace is pure
  instrumentation; the graph/value components are the Rust semantics.
* `invalidate_node` mirrors the explicit stack loop (`Vec::pop` takes the
  last element, so the Lean list models the stack reversed, head = top).
-/

namespace CompGraph3

/-- Evaluation outcome errors.  The Rust code only ever panics
(`EvalErr.panic`); the constructors `unsetInput`, `unknownInputName` and
`invalidReference` are the typed errors the specification asks for and are
used to state (and refute) the error-handling claims.  `fuel` marks
exhaustion of the structural-recursion fuel and is proved unreachable for
well-formed graphs. -/
inductive EvalErr where
  | panic (msg : String)
  | fuel
  | unsetInput (name : String)
  | unknownInputName (name : String)
  | invalidReference
deriving DecidableEq

/-- Panic message of `unreachable!` in `add_input_node`'s closure. -/
def msgInputNode : String := "should not be called on input node"

/-- Panic message of `expect` in `set_input`. -/
def msgNoSuchInput : String := "no such input"

/-- Panic message of out-of-bounds slice indexing. -/
def msgIndexOob : String := "index out of bounds"

/-- Panic message of `expect` in `calculate_node`'s collection loop. -/
def msgCacheExpect : String := "should be set in above loop"

/-- Panic message of `Option::unwrap` on `None` (the closure in `compute`). -/
def msgUnwrapNone : String := "called Option::unwrap on a None value"

/-- One arena node, mirroring `struct Node<T>` in `comp_graph3.rs`.
`op` returns `Except` so that panicking closures (the input-node closure)
can be embedded. -/
structure Node (T : Type) where
  cache : Option T
  node_inputs : List Nat
  dependents : List Nat
  op : List T → Except EvalErr T

/-- The graph, mirroring `struct CompGraph<T>`.  The `HashMap` of input
names is modelled as an association list where insertion prepends (lookup
finds the most recent binding, matching `HashMap::insert` overwrite
semantics). -/
structure CompGraph (T : Type) where
  nodes : List (Node T)
  graph_inputs : List (String × Nat)

variable {T : Type}

/-- `CompGraph::new`. -/
def new : CompGraph T := ⟨[], []⟩

/-- Cache field of node `i` (or `none` when out of range). -/
def cacheOfL (ns : List (Node T)) (i : Nat) : Option T :=
  match ns[i]? with
  | some nd => nd.cache
  | none => none

/-- Declared inputs of node `i` (or `[]` when out of range). -/
def inputsOfL (ns : List (Node T)) (i : Nat) : List Nat :=
  match ns[i]? with
  | some nd => nd.node_inputs
  | none => []

/-- Dependents (reverse edges) of node `i`. -/
def depsOfL (ns : List (Node T)) (i : Nat) : List Nat :=
  match ns[i]? with
  | some nd => nd.dependents
  | none => []

/-- Operation of node `i` (an out-of-range index panics when invoked). -/
def opOfL (ns : List (Node T)) (i : Nat) : List T → Except EvalErr T :=
  match ns[i]? with
  | some nd => nd.op
  | none => fun _ => .error (.panic msgIndexOob)

def cacheOf (g : CompGraph T) (i : Nat) : Option T := cacheOfL g.nodes i
def inputsOf (g : CompGraph T) (i : Nat) : List Nat := inputsOfL g.nodes i
def depsOf (g : CompGraph T) (i : Nat) : List Nat := depsOfL g.nodes i
def opOf (g : CompGraph T) (i : Nat) : List T → Except EvalErr T := opOfL g.nodes i

/-- Effectful map over a list of node ids, short-circuiting on the first
error — the evaluation order of both the iterator in `calculate_node` and
the recursive loop. -/
def mapME (f : Nat → Except EvalErr T) : List Nat → Except EvalErr (List T)
  | [] => .ok []
  | x :: xs =>
    match f x with
    | .error e => .error e
    | .ok v =>
      match mapME f xs with
      | .error e => .error e
      | .ok vs => .ok (v :: vs)

/-- The loop in `add_node` that appends the new node's id to the
`dependents` list of each of its inputs; `self.nodes[input.0]` panics on an
out-of-range input id. -/
def push_dependents (ns : List (Node T)) (next_id : Nat) :
    List Nat → Except EvalErr (List (Node T))
  | [] => .ok ns
  | i :: rest =>
    match ns[i]? with
    | none => .error (.panic msgIndexOob)
    | some nd =>
      push_dependents (ns.set i { nd with dependents := nd.dependents ++ [next_id] })
        next_id rest

/-- `CompGraph::add_node`. -/
def add_node (g : CompGraph T) (inputs : List Nat) (op : List T → Except EvalErr T) :
    Except EvalErr (CompGraph T × Nat) :=
  let next_id := g.nodes.length
  match push_dependents g.nodes next_id inputs with
  | .error e => .error e
  | .ok ns =>
    .ok (⟨ns ++ [⟨none, inputs, [], op⟩], g.graph_inputs⟩, next_id)

/-- The closure installed by `add_input_node`: it is never supposed to be
invoked and panics if it is. -/
def input_op : List T → Except EvalErr T := fun _ => .error (.panic msgInputNode)

/-- `CompGraph::add_input_node`. -/
def add_input_node (g : CompGraph T) (name : String) :
    Except EvalErr (CompGraph T × Nat) :=
  match add_node g [] input_op with
  | .error e => .error e
  | .ok (g', id) => .ok ({ g' with graph_inputs := (name, id) :: g'.graph_inputs }, id)

/-- `self.graph_inputs.get(name)`. -/
def lookup_input (g : CompGraph T) (name : String) : Option Nat :=
  match g.graph_inputs.find? (fun p => p.1 == name) with
  | some p => some p.2
  | none => none

/-- Largest `dependents` length over the arena; used to bound the
invalidation stack loop. -/
def max_dependents (ns : List (Node T)) : Nat :=
  ns.foldr (fun nd acc => max nd.dependents.length acc) 0

/-- Fuel sufficient for the invalidation loop on any graph whose
`dependents` edges point to strictly larger in-range indices. -/
def inv_fuel (ns : List (Node T)) : Nat :=
  (max_dependents ns + 1) ^ ns.length + 1

/-- The stack loop of `CompGraph::invalidate_node`.  The Rust `Vec` stack
pops from the back; the Lean list keeps the top at the head, so
`stack.extend(deps)` becomes prepending `deps.reverse`.  Also returns the
chronological list of popped node ids (ghost instrumentation). -/
def invalidate_node_loop (fuel : Nat) (ns : List (Node T)) (stack : List Nat)
    (popped : List Nat) : Except EvalErr (List (Node T) × List Nat) :=
  match fuel with
  | 0 => .error .fuel
  | fuel + 1 =>
    match stack with
    | [] => .ok (ns, popped.reverse)
    | next :: rest =>
      match ns[next]? with
      | none => .error (.panic msgIndexOob)
      | some nd =>
        invalidate_node_loop fuel (ns.set next { nd with cache := none })
          (nd.dependents.reverse ++ rest) (next :: popped)

/-- `CompGraph::invalidate_node`. -/
def invalidate_node (g : CompGraph T) (i : Nat) :
    Except EvalErr (CompGraph T × List Nat) :=
  match invalidate_node_loop (inv_fuel g.nodes) g.nodes [i] [] with
  | .error e => .error e
  | .ok (ns, popped) => .ok (⟨ns, g.graph_inputs⟩, popped)

/-- `CompGraph::set_input`: look the name up (panicking like `expect` when
absent), invalidate the input node and all transitive dependents, then
store the new value. -/
def set_input (g : CompGraph T) (name : String) (data : T) :
    Except EvalErr (CompGraph T) :=
  match lookup_input g name with
  | none => .error (.panic msgNoSuchInput)
  | some input_id =>
    match invalidate_node g input_id with
    | .error e => .error e
    | .ok (g1, _) =>
      match g1.nodes[input_id]? with
      | none => .error (.panic msgIndexOob)
      | some nd =>
        .ok ⟨g1.nodes.set input_id { nd with cache := some data }, g1.graph_inputs⟩

/-- The iterator body in `calculate_node`: read each input's cache,
panicking with the source's `expect` message when a cache is unset. -/
def collect_values (ns : List (Node T)) (inputs : List Nat) :
    Except EvalErr (List T) :=
  mapME (fun i =>
    match ns[i]? with
    | none => .error (.panic msgIndexOob)
    | some nd =>
      match nd.cache with
      | some v => .ok v
      | none => .error (.panic msgCacheExpect)) inputs

/-- The `for` loop of `calculate_node`: ensure every id in `inputs` has its
cache populated, recursing via `split_at_mut` (the recursive call only sees
the prefix `head.take i`).  Returns the updated arena and the ghost trace
of node ids whose `op` was invoked, in invocation order. -/
def calculate_loop (fuel : Nat) (head : List (Node T)) (inputs : List Nat) :
    Except EvalErr (List (Node T) × List Nat) :=
  match inputs with
  | [] => .ok (head, [])
  | i :: rest =>
    match head[i]? with
    | none => .error (.panic msgIndexOob)
    | some nd =>
      match nd.cache with
      | some _ => calculate_loop fuel head rest
      | none =>
        match fuel with
        | 0 => .error .fuel
        | fuel + 1 =>
          match calculate_loop fuel (head.take i) nd.node_inputs with
          | .error e => .error e
          | .ok (before, tr1) =>
            match collect_values before nd.node_inputs with
            | .error e => .error e
            | .ok vs =>
              match nd.op vs with
              | .error e => .error e
              | .ok v =>
                match calculate_loop (fuel + 1)
                    ((before ++ head.drop i).set i { nd with cache := some v }) rest with
                | .error e => .error e
                | .ok (head2, tr2) => .ok (head2, tr1 ++ i :: tr2)
  termination_by (fuel, inputs.length)

/-- `calculate_node`: run the loop, collect the input values and apply the
operation.  The `T × List Nat` part is (result value, ghost trace). -/
def calculate_node (fuel : Nat) (head : List (Node T)) (inputs : List Nat)
    (operation : List T → Except EvalErr T) :
    Except EvalErr (List (Node T) × T × List Nat) :=
  match calculate_loop fuel head inputs with
  | .error e => .error e
  | .ok (head', tr) =>
    match collect_values head' inputs with
    | .error e => .error e
    | .ok vs =>
      match operation vs with
      | .error e => .error e
      | .ok v => .ok (head', v, tr)

/-- The closure `|x| x.next().unwrap()` passed by `compute`. -/
def head_op : List T → Except EvalErr T := fun vs =>
  match vs with
  | v :: _ => .ok v
  | [] => .error (.panic msgUnwrapNone)

/-- `CompGraph::compute`.  Fuel `nodes.length + 1` is sufficient for every
graph built through the public API (proved below). -/
def compute (g : CompGraph T) (i : Nat) :
    Except EvalErr (CompGraph T × T × List Nat) :=
  match calculate_node (g.nodes.length + 1) g.nodes [i] head_op with
  | .error e => .error e
  | .ok (ns, v, tr) => .ok (⟨ns, g.graph_inputs⟩, v, tr)

mutual

/-- Denotational value of node `i`: the node's function applied to the
(recursively denoted) values of its declared inputs, in declared order.
For a node without inputs whose operation panics (an input node), the
current externally-set value (its cache) is the denotation.  `fuel` only
drives the recursion; `i + 1` is enough when inputs point below the node. -/
def denotAux (ns : List (Node T)) : Nat → Nat → Except EvalErr T
  | 0, _ => .error .fuel
  | fuel + 1, i =>
    match ns[i]? with
    | none => .error (.panic msgIndexOob)
    | some nd =>
      match nd.node_inputs with
      | [] =>
        match nd.op [] with
        | .ok v => .ok v
        | .error e =>
          match nd.cache with
          | some v => .ok v
          | none => .error e
      | _ :: _ =>
        match denotListAux ns fuel nd.node_inputs with
        | .error e => .error e
        | .ok vs => nd.op vs
  termination_by fuel _ => (fuel, 0)

/-- Denotations of a list of nodes, first error wins. -/
def denotListAux (ns : List (Node T)) : Nat → List Nat → Except EvalErr (List T)
  | _, [] => .ok []
  | fuel, i :: rest =>
    match denotAux ns fuel i with
    | .error e => .error e
    | .ok v =>
      match denotListAux ns fuel rest with
      | .error e => .error e
      | .ok vs => .ok (v :: vs)
  termination_by fuel l => (fuel, l.length + 1)
end

/-- Denotational value of node `i` in arena `ns`. -/
def denotL (ns : List (Node T)) (i : Nat) : Except EvalErr T :=
  denotAux ns (i + 1) i

/-- Denotational value of node `i` in graph `g`: `g`'s functions applied
along the declared-input edges to the currently set input values. -/
def denot (g : CompGraph T) (i : Nat) : Except EvalErr T := denotL g.nodes i

/-! ## Well-formedness predicates and reachability relations -/

/-- Every declared input of every node points strictly below the node
(the construction-order invariant that makes the graph acyclic). -/
def WFUpL (ns : List (Node T)) : Prop :=
  ∀ (i : Nat) (nd : Node T), ns[i]? = some nd → ∀ j ∈ nd.node_inputs, j < i

/-- Every dependent edge points to a strictly larger, in-range index. -/
def DepsUpL (ns : List (Node T)) : Prop :=
  ∀ (i : Nat) (nd : Node T), ns[i]? = some nd → ∀ j ∈ nd.dependents, i < j ∧ j < ns.length

/-- Any populated cache holds the node's denotational value
(the no-stale-value invariant). -/
def CacheInvL (ns : List (Node T)) : Prop :=
  ∀ i v, cacheOfL ns i = some v → denotL ns i = .ok v

/-- A cached node has all of its declared inputs cached as well. -/
def AncCachedL (ns : List (Node T)) : Prop :=
  ∀ i v, cacheOfL ns i = some v → ∀ j ∈ inputsOfL ns i, ∃ w, cacheOfL ns j = some w

/-- No stored operation ever reports fuel exhaustion (operations built by
the public API are pure, or the input-node panic closure). -/
def OpsNoFuelL (ns : List (Node T)) : Prop :=
  ∀ i vs, opOfL ns i vs ≠ .error .fuel

/-- Reflexive-transitive reachability along declared-input edges
(`k` is `i` itself or a transitive ancestor of `i`). -/
inductive InputsReach (ns : List (Node T)) : Nat → Nat → Prop where
  | refl (i : Nat) : InputsReach ns i i
  | tail {i j k : Nat} : InputsReach ns i j → k ∈ inputsOfL ns j → InputsReach ns i k

/-- Reflexive-transitive reachability along dependent (reverse) edges. -/
inductive DepsReach (ns : List (Node T)) : Nat → Nat → Prop where
  | refl (i : Nat) : DepsReach ns i i
  | tail {i j k : Nat} : DepsReach ns i j → k ∈ depsOfL ns j → DepsReach ns i k

/-- `j` is transitively dependent on `i` (at least one dependent edge is
taken, so this excludes `i` itself in an acyclic graph). -/
def ProperDep (ns : List (Node T)) (i j : Nat) : Prop :=
  ∃ d ∈ depsOfL ns i, DepsReach ns d j

/-- `k` is reachable along declared-input edges from some id in `ins`. -/
abbrev InsReach (ns : List (Node T)) (ins : List Nat) (k : Nat) : Prop :=
  ∃ i ∈ ins, InputsReach ns i k

/-- The full well-formedness bundle maintained by every public operation. -/
structure WF (g : CompGraph T) : Prop where
  inputs_lt : WFUpL g.nodes
  deps_gt : DepsUpL g.nodes
  edges : ∀ i j, i < g.nodes.length → j < g.nodes.length →
    (j ∈ depsOfL g.nodes i ↔ i ∈ inputsOfL g.nodes j)
  registry : ∀ p ∈ g.graph_inputs, p.2 < g.nodes.length ∧
    inputsOfL g.nodes p.2 = [] ∧ ∀ vs, opOfL g.nodes p.2 vs = .error (.panic msgInputNode)
  cache_inv : CacheInvL g.nodes
  anc_cached : AncCachedL g.nodes
  no_fuel_op : OpsNoFuelL g.nodes
  ops_err : ∀ (i : Nat) (nd : Node T), g.nodes[i]? = some nd →
    ∀ vs e, nd.op vs = .error e → e = .panic msgInputNode

/-- Graph states reachable through the public API.  Operations supplied to
`add_node` are pure functions of the collected input values, as the
specification's data model requires. -/
inductive Reachable : CompGraph T → Prop where
  | base : Reachable new
  | add_node_step {g : CompGraph T} {inputs : List Nat} {f : List T → T}
      {g' : CompGraph T} {id : Nat} :
      Reachable g → add_node g inputs (fun vs => .ok (f vs)) = .ok (g', id) →
      Reachable g'
  | add_input_step {g g' : CompGraph T} {name : String} {id : Nat} :
      Reachable g → add_input_node g name = .ok (g', id) → Reachable g'
  | set_input_step {g g' : CompGraph T} {name : String} {v : T} :
      Reachable g → set_input g name v = .ok g' → Reachable g'
  | compute_step {g g' : CompGraph T} {v : T} {tr : List Nat} {i : Nat} :
      Reachable g → compute g i = .ok (g', v, tr) → Reachable g'

/-! ## Basic accessor lemmas -/

lemma cacheOfL_eq {ns : List (Node T)} {i : Nat} {nd : Node T}
    (h : ns[i]? = some nd) : cacheOfL ns i = nd.cache := by
  simp [cacheOfL, h]

lemma inputsOfL_eq {ns : List (Node T)} {i : Nat} {nd : Node T}
    (h : ns[i]? = some nd) : inputsOfL ns i = nd.node_inputs := by
  simp [inputsOfL, h]

lemma depsOfL_eq {ns : List (Node T)} {i : Nat} {nd : Node T}
    (h : ns[i]? = some nd) : depsOfL ns i = nd.dependents := by
  simp [depsOfL, h]

lemma opOfL_eq {ns : List (Node T)} {i : Nat} {nd : Node T}
    (h : ns[i]? = some nd) : opOfL ns i = nd.op := by
  simp [opOfL, h]

lemma cacheOfL_oob {ns : List (Node T)} {i : Nat}
    (h : ns[i]? = none) : cacheOfL ns i = none := by
  simp [cacheOfL, h]

/-- Setting only the cache of one node: effect on `getElem?`. -/
lemma get_set_cache {ns : List (Node T)} {i : Nat} {nd : Node T} (c : Option T)
    (h : ns[i]? = some nd) (k : Nat) :
    (ns.set i { nd with cache := c })[k]? =
      if k = i then some { nd with cache := c } else ns[k]? := by
  rcases eq_or_ne k i with rfl | hne
  · have hlt : k < ns.length := by
      by_contra hge
      simp [List.getElem?_eq_none_iff.2 (Nat.le_of_not_lt hge)] at h
    simp [List.getElem?_set_eq_of_lt _ hlt]
  · simp [hne, List.getElem?_set_ne (by omega : i ≠ k)]

/-- Shape equality: same length and all fields except `cache` agree. -/
structure SameShape (ns ns' : List (Node T)) : Prop where
  len_eq : ns'.length = ns.length
  shape : ∀ (k : Nat) (nd : Node T), ns[k]? = some nd →
    ∃ c, ns'[k]? = some { nd with cache := c }

lemma SameShape.refl (ns : List (Node T)) : SameShape ns ns :=
  ⟨rfl, fun _ nd h => ⟨nd.cache, h⟩⟩

lemma SameShape.trans {ns1 ns2 ns3 : List (Node T)}
    (h12 : SameShape ns1 ns2) (h23 : SameShape ns2 ns3) : SameShape ns1 ns3 := by
  refine ⟨h23.len_eq.trans h12.len_eq, fun k nd h => ?_⟩
  obtain ⟨c, hc⟩ := h12.shape k nd h
  obtain ⟨c', hc'⟩ := h23.shape k _ hc
  exact ⟨c', hc'⟩

lemma SameShape.get_none {ns ns' : List (Node T)} (hs : SameShape ns ns')
    {k : Nat} (h : ns[k]? = none) : ns'[k]? = none := by
  have hlen := hs.len_eq
  rw [List.getElem?_eq_none_iff] at h ⊢
  omega

lemma SameShape.inputs_eq {ns ns' : List (Node T)} (hs : SameShape ns ns')
    (k : Nat) : inputsOfL ns' k = inputsOfL ns k := by
  cases h : ns[k]? with
  | none =>
    have h' : ns'[k]? = none := hs.get_none h
    simp [inputsOfL, h, h']
  | some nd =>
    obtain ⟨c, hc⟩ := hs.shape k nd h
    simp [inputsOfL, h, hc]

lemma SameShape.deps_eq {ns ns' : List (Node T)} (hs : SameShape ns ns')
    (k : Nat) : depsOfL ns' k = depsOfL ns k := by
  cases h : ns[k]? with
  | none =>
    have h' : ns'[k]? = none := hs.get_none h
    simp [depsOfL, h, h']
  | some nd =>
    obtain ⟨c, hc⟩ := hs.shape k nd h
    simp [depsOfL, h, hc]

lemma SameShape.op_eq {ns ns' : List (Node T)} (hs : SameShape ns ns')
    (k : Nat) : opOfL ns' k = opOfL ns k := by
  cases h : ns[k]? with
  | none =>
    have h' : ns'[k]? = none := hs.get_none h
    simp [opOfL, h, h']
  | some nd =>
    obtain ⟨c, hc⟩ := hs.shape k nd h
    simp [opOfL, h, hc]

lemma SameShape.inputsReach_iff {ns ns' : List (Node T)} (hs : SameShape ns ns')
    {i k : Nat} : InputsReach ns' i k ↔ InputsReach ns i k := by
  constructor
  · intro h
    induction h with
    | refl => exact .refl _
    | tail _ hmem ih => exact .tail ih (by rwa [hs.inputs_eq] at hmem)
  · intro h
    induction h with
    | refl => exact .refl _
    | tail _ hmem ih => exact .tail ih (by rwa [← hs.inputs_eq] at hmem)

lemma SameShape.depsReach_iff {ns ns' : List (Node T)} (hs : SameShape ns ns')
    {i k : Nat} : DepsReach ns' i k ↔ DepsReach ns i k := by
  constructor
  · intro h
    induction h with
    | refl => exact .refl _
    | tail _ hmem ih => exact .tail ih (by rwa [hs.deps_eq] at hmem)
  · intro h
    induction h with
    | refl => exact .refl _
    | tail _ hmem ih => exact .tail ih (by rwa [← hs.deps_eq] at hmem)

/-! ## mapME lemmas -/

lemma mapME_congr {f g : Nat → Except EvalErr T} {l : List Nat}
    (h : ∀ x ∈ l, f x = g x) : mapME f l = mapME g l := by
  induction l with
  | nil => rfl
  | cons x xs ih =>
    simp only [mapME]
    rw [h x (by simp), ih (fun y hy => h y (by simp [hy]))]

lemma mapME_ok_mem {f : Nat → Except EvalErr T} {l : List Nat} {vs : List T}
    (h : mapME f l = .ok vs) : ∀ x ∈ l, ∃ v, f x = .ok v := by
  induction l generalizing vs with
  | nil => simp
  | cons x xs ih =>
    intro y hy
    simp only [mapME] at h
    cases hfx : f x with
    | error e => simp [hfx] at h
    | ok v =>
      rw [hfx] at h
      cases hxs : mapME f xs with
      | error e => rw [hxs] at h; cases h
      | ok vs' =>
        rcases List.mem_cons.1 hy with rfl | hy'
        · exact ⟨v, hfx⟩
        · exact ih hxs y hy'

lemma mapME_error_mem {f : Nat → Except EvalErr T} {l : List Nat} {e : EvalErr}
    (h : mapME f l = .error e) : ∃ x ∈ l, f x = .error e := by
  induction l with
  | nil => cases h
  | cons x xs ih =>
    simp only [mapME] at h
    cases hfx : f x with
    | error e' =>
      rw [hfx] at h
      cases h
      exact ⟨x, by simp, hfx⟩
    | ok v =>
      rw [hfx] at h
      cases hxs : mapME f xs with
      | error e' =>
        rw [hxs] at h
        cases h
        obtain ⟨y, hy, hfy⟩ := ih hxs
        exact ⟨y, by simp [hy], hfy⟩
      | ok vs' => rw [hxs] at h; cases h

/-! ## denotational-semantics lemmas -/

lemma denotListAux_eq_mapME (ns : List (Node T)) (fuel : Nat) (l : List Nat) :
    denotListAux ns fuel l = mapME (denotAux ns fuel) l := by
  induction l with
  | nil => simp [denotListAux, mapME]
  | cons x xs ih => simp only [denotListAux, mapME, ih]

/-- Membership in a node's declared inputs implies a strictly smaller index. -/
lemma lt_of_mem_inputs {ns : List (Node T)} (hup : WFUpL ns) {b c : Nat}
    (h : c ∈ inputsOfL ns b) : c < b := by
  cases hb : ns[b]? with
  | none => simp [inputsOfL, hb] at h
  | some nd =>
    simp only [inputsOfL, hb] at h
    exact hup b nd hb c h

/-- Fuel above the node index is irrelevant: any sufficient fuel computes
`denotL`. -/
lemma denotAux_eq_denotL {ns : List (Node T)} (hup : WFUpL ns) :
    ∀ (i f : Nat), i < f → denotAux ns f i = denotL ns i := by
  intro i
  induction i using Nat.strong_induction_on with
  | _ i ih =>
    intro f hf
    obtain ⟨f', rfl⟩ : ∃ f', f = f' + 1 := ⟨f - 1, by omega⟩
    cases h : ns[i]? with
    | none => simp [denotL, denotAux, h]
    | some nd =>
      cases hin : nd.node_inputs with
      | nil => simp [denotL, denotAux, h, hin]
      | cons a as =>
        have hlist : denotListAux ns f' (a :: as) = denotListAux ns i (a :: as) := by
          rw [denotListAux_eq_mapME, denotListAux_eq_mapME]
          apply mapME_congr
          intro j hj
          have hji : j < i := hup i nd h j (by rw [hin]; exact hj)
          rw [ih j hji f' (by omega), ih j hji i hji]
        simp only [denotL, denotAux, h, hin, hlist]

/-- Agreement of the denotation-relevant fields (everything except
`dependents`) of two optional nodes. -/
def DenotAgree : Option (Node T) → Option (Node T) → Prop
  | none, none => True
  | some a, some b => a.cache = b.cache ∧ a.node_inputs = b.node_inputs ∧ a.op = b.op
  | _, _ => False

/-- Arenas whose denotation-relevant fields agree below `m` denote the same
values below `m` (the `dependents` lists may differ arbitrarily). -/
lemma denotAux_frameA {ns ns2 : List (Node T)} {m : Nat} (hup : WFUpL ns)
    (hag : ∀ j, j < m → DenotAgree (ns2[j]?) (ns[j]?)) :
    ∀ (f i : Nat), i < m → denotAux ns2 f i = denotAux ns f i := by
  intro f
  induction f with
  | zero => intro i _; simp [denotAux]
  | succ f ihf =>
    intro i him
    have hgi := hag i him
    cases h : ns[i]? with
    | none =>
      cases h2 : ns2[i]? with
      | none => simp [denotAux, h, h2]
      | some nd2 =>
        rw [h, h2] at hgi
        cases hgi
    | some nd =>
      cases h2 : ns2[i]? with
      | none =>
        rw [h, h2] at hgi
        cases hgi
      | some nd2 =>
        rw [h, h2] at hgi
        obtain ⟨hfc, hfi, hfo⟩ := hgi
        cases hin : nd.node_inputs with
        | nil => simp [denotAux, h, h2, hin, hfc, hfi, hfo]
        | cons a as =>
          have hlist : denotListAux ns2 f (a :: as) = denotListAux ns f (a :: as) := by
            rw [denotListAux_eq_mapME, denotListAux_eq_mapME]
            apply mapME_congr
            intro j hj
            have hji : j < i := hup i nd h j (by rw [hin]; exact hj)
            exact ihf j (by omega)
          simp only [denotAux, h, h2, hin, hfc, hfi, hfo, hlist]

/-- Arenas that agree below `m` denote the same values below `m`. -/
lemma denotAux_frame {ns ns2 : List (Node T)} {m : Nat} (hup : WFUpL ns)
    (hag : ∀ j, j < m → ns2[j]? = ns[j]?) :
    ∀ (f i : Nat), i < m → denotAux ns2 f i = denotAux ns f i := by
  apply denotAux_frameA hup
  intro j hj
  rw [hag j hj]
  cases ns[j]? with
  | none => trivial
  | some nd => exact ⟨rfl, rfl, rfl⟩

lemma denotL_take {ns : List (Node T)} {m i : Nat} (hup : WFUpL ns) (him : i < m) :
    denotL (ns.take m) i = denotL ns i := by
  rw [denotL, denotL]
  exact denotAux_frame hup (fun j hj => List.getElem?_take_of_lt hj) (i + 1) i him

lemma denotL_append {ns ext : List (Node T)} {i : Nat} (hup : WFUpL ns)
    (him : i < ns.length) : denotL (ns ++ ext) i = denotL ns i := by
  rw [denotL, denotL]
  exact denotAux_frame hup (fun j hj => List.getElem?_append_left hj) (i + 1) i him

lemma denotL_oob {ns : List (Node T)} {i : Nat} (h : ns[i]? = none) :
    denotL ns i = .error (.panic msgIndexOob) := by
  simp [denotL, denotAux, h]

/-- One-step unfolding of `denotL` with inner fuels already normalised. -/
lemma denotL_unfold {ns : List (Node T)} {i : Nat} {nd : Node T} (hup : WFUpL ns)
    (h : ns[i]? = some nd) :
    denotL ns i =
      match nd.node_inputs with
      | [] =>
        (match nd.op [] with
         | .ok v => .ok v
         | .error e =>
           match nd.cache with
           | some v => .ok v
           | none => .error e)
      | _ :: _ =>
        match mapME (denotL ns) nd.node_inputs with
        | .error e => .error e
        | .ok vs => nd.op vs := by
  cases hin : nd.node_inputs with
  | nil => simp [denotL, denotAux, h, hin]
  | cons a as =>
    have hlist : denotListAux ns i (a :: as) = mapME (denotL ns) (a :: as) := by
      rw [denotListAux_eq_mapME]
      apply mapME_congr
      intro j hj
      have hji : j < i := hup i nd h j (by rw [hin]; exact hj)
      exact denotAux_eq_denotL hup j i hji
    simp only [denotL, denotAux, h, hin, hlist]

lemma denotL_ok_of_mem_inputs {ns : List (Node T)} {i j : Nat} (hup : WFUpL ns)
    (hok : ∃ v, denotL ns i = .ok v) (hj : j ∈ inputsOfL ns i) :
    ∃ w, denotL ns j = .ok w := by
  obtain ⟨v, hv⟩ := hok
  cases h : ns[i]? with
  | none => simp [inputsOfL, h] at hj
  | some nd =>
    rw [inputsOfL_eq h] at hj
    rw [denotL_unfold hup h] at hv
    cases hin : nd.node_inputs with
    | nil => rw [hin] at hj; cases hj
    | cons a as =>
      rw [hin] at hv
      cases hm : mapME (denotL ns) (a :: as) with
      | error e => rw [hm] at hv; cases hv
      | ok vs =>
        exact mapME_ok_mem hm j (by rw [← hin]; exact hj)

lemma denotL_ok_of_reach {ns : List (Node T)} {i k : Nat} (hup : WFUpL ns)
    (hok : ∃ v, denotL ns i = .ok v) (hr : InputsReach ns i k) :
    ∃ w, denotL ns k = .ok w := by
  induction hr with
  | refl => exact hok
  | tail _ hmem ih => exact denotL_ok_of_mem_inputs hup ih hmem

lemma inputsReach_le {ns : List (Node T)} {i k : Nat} (hup : WFUpL ns)
    (hr : InputsReach ns i k) : k ≤ i := by
  induction hr with
  | refl => exact Nat.le_refl _
  | tail _ hmem ih =>
    have := lt_of_mem_inputs hup hmem
    omega

lemma denotL_ne_fuel {ns : List (Node T)} (hup : WFUpL ns) (hnf : OpsNoFuelL ns)
    (i : Nat) : denotL ns i ≠ .error .fuel := by
  induction i using Nat.strong_induction_on with
  | _ i ih =>
    cases h : ns[i]? with
    | none => rw [denotL_oob h]; intro hcon; cases hcon
    | some nd =>
      have hop : ∀ vs, nd.op vs ≠ .error .fuel := by
        intro vs
        have := hnf i vs
        rwa [opOfL_eq h] at this
      rw [denotL_unfold hup h]
      cases hin : nd.node_inputs with
      | nil =>
        cases hoe : nd.op [] with
        | ok v => intro hcon; cases hcon
        | error e =>
          cases hc : nd.cache with
          | some v => intro hcon; cases hcon
          | none =>
            intro hcon
            cases hcon
            exact hop [] hoe
      | cons a as =>
        cases hm : mapME (denotL ns) (a :: as) with
        | error e =>
          intro hcon
          cases hcon
          obtain ⟨j, hj, hje⟩ := mapME_error_mem hm
          have hji : j < i := hup i nd h j (by rw [hin]; exact hj)
          exact ih j hji hje
        | ok vs => exact hop vs

lemma lt_of_get_some {ns : List (Node T)} {i : Nat} {nd : Node T}
    (h : ns[i]? = some nd) : i < ns.length := by
  by_contra hge
  rw [List.getElem?_eq_none_iff.2 (Nat.le_of_not_lt hge)] at h
  cases h

/-- Replacing node `i`: effect on `getElem?`. -/
lemma get_set_node {ns : List (Node T)} {i : Nat} {nd : Node T} (nd' : Node T)
    (h : ns[i]? = some nd) (k : Nat) :
    (ns.set i nd')[k]? = if k = i then some nd' else ns[k]? := by
  rcases eq_or_ne k i with rfl | hne
  · simp [List.getElem?_set_eq_of_lt _ (lt_of_get_some h)]
  · simp [hne, List.getElem?_set_ne (by omega : i ≠ k)]

/-- Caches may be filled in (each new cache justified by the denotation)
without changing any denotation. -/
lemma denotAux_cache_congr {ns ns' : List (Node T)} (hs : SameShape ns ns')
    (h1 : ∀ k v, cacheOfL ns k = some v → cacheOfL ns' k = some v)
    (h2 : ∀ k v, cacheOfL ns' k = some v →
      cacheOfL ns k = some v ∨ denotL ns k = .ok v) :
    ∀ (f i : Nat), denotAux ns' f i = denotAux ns f i := by
  intro f
  induction f with
  | zero => intro i; simp [denotAux]
  | succ f ihf =>
    intro i
    cases h : ns[i]? with
    | none =>
      have h' : ns'[i]? = none := hs.get_none h
      simp [denotAux, h, h']
    | some nd =>
      obtain ⟨c, hc⟩ := hs.shape i nd h
      cases hin : nd.node_inputs with
      | nil =>
        cases hoe : nd.op [] with
        | ok v => simp [denotAux, h, hc, hin, hoe]
        | error e =>
          cases hnc : nd.cache with
          | some v =>
            have hv : cacheOfL ns' i = some v := h1 i v (by rw [cacheOfL_eq h, hnc])
            have hcv : c = some v := by rwa [cacheOfL_eq hc] at hv
            simp [denotAux, h, hc, hin, hoe, hnc, hcv]
          | none =>
            have hcn : c = none := by
              cases hcc : c with
              | none => rfl
              | some v =>
                rcases h2 i v (by rw [cacheOfL_eq hc, hcc]) with hl | hr
                · rw [cacheOfL_eq h, hnc] at hl; cases hl
                · simp [denotL, denotAux, h, hin, hoe, hnc] at hr
            simp [denotAux, h, hc, hin, hoe, hnc, hcn]
      | cons a as =>
        have hlist : denotListAux ns' f (a :: as) = denotListAux ns f (a :: as) := by
          rw [denotListAux_eq_mapME, denotListAux_eq_mapME]
          exact mapME_congr (fun j _ => ihf j)
        simp only [denotAux, h, hc, hin, hlist]

lemma denotL_cache_congr {ns ns' : List (Node T)} (hs : SameShape ns ns')
    (h1 : ∀ k v, cacheOfL ns k = some v → cacheOfL ns' k = some v)
    (h2 : ∀ k v, cacheOfL ns' k = some v →
      cacheOfL ns k = some v ∨ denotL ns k = .ok v) (i : Nat) :
    denotL ns' i = denotL ns i :=
  denotAux_cache_congr hs h1 h2 (i + 1) i

/-! ## `push_dependents` and `add_node` -/

lemma push_dependents_error {ns : List (Node T)} {nid : Nat} {l : List Nat} {e : EvalErr}
    (h : push_dependents ns nid l = .error e) : e = .panic msgIndexOob := by
  induction l generalizing ns with
  | nil => simp [push_dependents] at h
  | cons i rest ih =>
    simp only [push_dependents] at h
    cases hi : ns[i]? with
    | none => rw [hi] at h; cases h; rfl
    | some nd => rw [hi] at h; exact ih h

lemma push_dependents_oob {ns : List (Node T)} {nid : Nat} {l : List Nat}
    (h : ∃ j ∈ l, ns.length ≤ j) :
    push_dependents ns nid l = .error (.panic msgIndexOob) := by
  induction l generalizing ns with
  | nil => simp at h
  | cons i rest ih =>
    simp only [push_dependents]
    cases hi : ns[i]? with
    | none => rfl
    | some nd =>
      obtain ⟨j, hj, hge⟩ := h
      rcases List.mem_cons.1 hj with rfl | hj'
      · exact absurd (lt_of_get_some hi) (Nat.not_lt.2 hge)
      · exact ih ⟨j, hj', by simpa using hge⟩

lemma push_dependents_total {ns : List (Node T)} {nid : Nat} {l : List Nat}
    (h : ∀ j ∈ l, j < ns.length) : ∃ ns', push_dependents ns nid l = .ok ns' := by
  induction l generalizing ns with
  | nil => exact ⟨ns, rfl⟩
  | cons i rest ih =>
    have hi : i < ns.length := h i (by simp)
    cases hg : ns[i]? with
    | none => rw [List.getElem?_eq_none_iff] at hg; omega
    | some nd =>
      have hrest : ∀ j ∈ rest, j <
          (ns.set i { nd with dependents := nd.dependents ++ [nid] }).length := by
        intro j hj
        rw [List.length_set]
        exact h j (by simp [hj])
      obtain ⟨ns', hns'⟩ := ih hrest
      exact ⟨ns', by simp only [push_dependents, hg]; exact hns'⟩

lemma push_dependents_ok {ns ns' : List (Node T)} {nid : Nat} {l : List Nat}
    (h : push_dependents ns nid l = .ok ns') :
    (∀ i ∈ l, i < ns.length) ∧ ns'.length = ns.length ∧
    (∀ k, cacheOfL ns' k = cacheOfL ns k ∧ inputsOfL ns' k = inputsOfL ns k ∧
      opOfL ns' k = opOfL ns k) ∧
    (∀ k j, j ∈ depsOfL ns' k ↔ j ∈ depsOfL ns k ∨ (j = nid ∧ k ∈ l)) := by
  induction l generalizing ns with
  | nil =>
    simp only [push_dependents] at h
    cases h
    simp
  | cons i rest ih =>
    simp only [push_dependents] at h
    cases hi : ns[i]? with
    | none => rw [hi] at h; cases h
    | some nd =>
      rw [hi] at h
      obtain ⟨hb, hlen, hfields, hdeps⟩ := ih h
      have hget : ∀ k, (ns.set i { nd with dependents := nd.dependents ++ [nid] })[k]? =
          if k = i then some { nd with dependents := nd.dependents ++ [nid] }
          else ns[k]? := get_set_node _ hi
      have hlen1 : (ns.set i { nd with dependents := nd.dependents ++ [nid] }).length =
          ns.length := List.length_set ..
      refine ⟨?_, by rw [hlen, hlen1], ?_, ?_⟩
      · intro x hx
        rcases List.mem_cons.1 hx with rfl | hx'
        · exact lt_of_get_some hi
        · have := hb x hx'
          omega
      · intro k
        obtain ⟨hc, hin, hop⟩ := hfields k
        rcases eq_or_ne k i with rfl | hne
        · refine ⟨?_, ?_, ?_⟩
          · rw [hc, cacheOfL, hget k, if_pos rfl, cacheOfL_eq hi]
          · rw [hin, inputsOfL, hget k, if_pos rfl, inputsOfL_eq hi]
          · rw [hop, opOfL, hget k, if_pos rfl, opOfL_eq hi]
        · refine ⟨?_, ?_, ?_⟩
          · rw [hc, cacheOfL, hget k, if_neg hne]; rfl
          · rw [hin, inputsOfL, hget k, if_neg hne]; rfl
          · rw [hop, opOfL, hget k, if_neg hne]; rfl
      · intro a b
        rw [hdeps a b]
        have hd1 : depsOfL (ns.set i { nd with dependents := nd.dependents ++ [nid] }) a =
            if a = i then nd.dependents ++ [nid] else depsOfL ns a := by
          rcases eq_or_ne a i with rfl | hne
          · simp [depsOfL, hget a]
          · simp [depsOfL, hget a, hne]
        rw [hd1]
        rcases eq_or_ne a i with rfl | hne
        · rw [if_pos rfl, depsOfL_eq hi]
          simp only [List.mem_append, List.mem_cons, List.mem_singleton]
          tauto
        · rw [if_neg hne]
          simp only [List.mem_cons]
          constructor
          · rintro (h' | h')
            · exact Or.inl h'
            · exact Or.inr ⟨h'.1, Or.inr h'.2⟩
          · rintro (h' | ⟨hb, hrest⟩)
            · exact Or.inl h'
            · rcases hrest with rfl | h'
              · exact absurd rfl hne
              · exact Or.inr ⟨hb, h'⟩

lemma add_node_error {g : CompGraph T} {inputs : List Nat}
    {op : List T → Except EvalErr T} {e : EvalErr}
    (h : add_node g inputs op = .error e) : e = .panic msgIndexOob := by
  simp only [add_node] at h
  cases hp : push_dependents g.nodes g.nodes.length inputs with
  | error e' => rw [hp] at h; cases h; exact push_dependents_error hp
  | ok ns1 => rw [hp] at h; cases h

lemma add_node_oob {g : CompGraph T} {inputs : List Nat}
    {op : List T → Except EvalErr T}
    (h : ∃ j ∈ inputs, g.nodes.length ≤ j) :
    add_node g inputs op = .error (.panic msgIndexOob) := by
  simp only [add_node, push_dependents_oob h]

lemma add_node_total {g : CompGraph T} {inputs : List Nat}
    {op : List T → Except EvalErr T}
    (h : ∀ j ∈ inputs, j < g.nodes.length) :
    ∃ g' id, add_node g inputs op = .ok (g', id) := by
  obtain ⟨ns', hns'⟩ := (push_dependents_total h :
    ∃ l, push_dependents g.nodes g.nodes.length inputs = .ok l)
  exact ⟨⟨ns' ++ [⟨none, inputs, [], op⟩], g.graph_inputs⟩, g.nodes.length,
    by simp only [add_node, hns']⟩

/-- Characterisation of a successful `add_node`. -/
lemma add_node_ok_spec {g g' : CompGraph T} {inputs : List Nat}
    {op : List T → Except EvalErr T} {id : Nat}
    (h : add_node g inputs op = .ok (g', id)) :
    id = g.nodes.length ∧
    g'.graph_inputs = g.graph_inputs ∧
    g'.nodes.length = g.nodes.length + 1 ∧
    (∀ i ∈ inputs, i < g.nodes.length) ∧
    g'.nodes[id]? = some ⟨none, inputs, [], op⟩ ∧
    (∀ k, k < g.nodes.length → g'.nodes[k]? ≠ none ∧
      cacheOfL g'.nodes k = cacheOfL g.nodes k ∧
      inputsOfL g'.nodes k = inputsOfL g.nodes k ∧
      opOfL g'.nodes k = opOfL g.nodes k) ∧
    (∀ k j, j ∈ depsOfL g'.nodes k ↔
      j ∈ depsOfL g.nodes k ∨ (j = id ∧ k ∈ inputs)) := by
  simp only [add_node] at h
  cases hp : push_dependents g.nodes g.nodes.length inputs with
  | error e => rw [hp] at h; cases h
  | ok ns1 =>
    rw [hp] at h
    cases h
    obtain ⟨hb, hlen, hfields, hdeps⟩ := push_dependents_ok hp
    have hget : ∀ k, (ns1 ++ [(⟨none, inputs, [], op⟩ : Node T)])[k]? =
        if k < g.nodes.length then ns1[k]?
        else if k = g.nodes.length then some ⟨none, inputs, [], op⟩ else none := by
      intro k
      rcases Nat.lt_trichotomy k g.nodes.length with hlt | heq | hgt
      · rw [if_pos hlt, List.getElem?_append_left (by omega)]
      · rw [if_neg (by omega), if_pos heq,
          List.getElem?_append_right (by omega)]
        have h0 : k - ns1.length = 0 := by omega
        simp [h0]
      · rw [if_neg (by omega), if_neg (by omega)]
        rw [List.getElem?_eq_none_iff]
        simp only [List.length_append, List.length_singleton]
        omega
    refine ⟨rfl, rfl, by simp [hlen], hb, ?_, ?_, ?_⟩
    · rw [hget, if_neg (by omega), if_pos rfl]
    · intro k hk
      obtain ⟨hc, hin, hop⟩ := hfields k
      have hg : (ns1 ++ [(⟨none, inputs, [], op⟩ : Node T)])[k]? = ns1[k]? := by
        rw [hget, if_pos hk]
      refine ⟨?_, ?_, ?_, ?_⟩
      · rw [hg]
        intro hcon
        rw [List.getElem?_eq_none_iff] at hcon
        omega
      · rw [cacheOfL, hg, ← cacheOfL, hc]
      · rw [inputsOfL, hg, ← inputsOfL, hin]
      · rw [opOfL, hg, ← opOfL, hop]
    · intro k j
      rcases Nat.lt_trichotomy k g.nodes.length with hlt | heq | hgt
      · have hg : (ns1 ++ [(⟨none, inputs, [], op⟩ : Node T)])[k]? = ns1[k]? := by
          rw [hget, if_pos hlt]
        rw [depsOfL, hg, ← depsOfL, hdeps]
      · have hg : (ns1 ++ [(⟨none, inputs, [], op⟩ : Node T)])[k]? =
            some ⟨none, inputs, [], op⟩ := by
          rw [hget, if_neg (by omega), if_pos heq]
        have hko : g.nodes[k]? = none := by
          rw [List.getElem?_eq_none_iff]; omega
        have hki : k ∉ inputs := fun hk => by have := hb k hk; omega
        simp [depsOfL, hg, hko, hki]
      · have hg : (ns1 ++ [(⟨none, inputs, [], op⟩ : Node T)])[k]? = none := by
          rw [hget, if_neg (by omega), if_neg (by omega)]
        have hko : g.nodes[k]? = none := by
          rw [List.getElem?_eq_none_iff]; omega
        have hki : k ∉ inputs := fun hk => by have := hb k hk; omega
        simp [depsOfL, hg, hko, hki]

/-- `add_input_node` never fails and is fully determined. -/
lemma add_input_node_eq (g : CompGraph T) (name : String) :
    add_input_node g name =
      .ok (⟨g.nodes ++ [⟨none, [], [], input_op⟩],
        (name, g.nodes.length) :: g.graph_inputs⟩, g.nodes.length) := by
  simp [add_input_node, add_node, push_dependents]

lemma lookup_input_mem {g : CompGraph T} {name : String} {id : Nat}
    (h : lookup_input g name = some id) :
    ∃ p ∈ g.graph_inputs, p.2 = id := by
  simp only [lookup_input] at h
  cases hf : g.graph_inputs.find? (fun p => p.1 == name) with
  | none => rw [hf] at h; cases h
  | some p =>
    rw [hf] at h
    cases h
    exact ⟨p, List.mem_of_find?_eq_some hf, rfl⟩

/-! ## Invalidation: termination measure and characterisation -/

/-- Weight of a stack: strictly decreases at every pop when dependent
edges point upward. -/
def inv_weight (ns : List (Node T)) (stack : List Nat) : Nat :=
  (stack.map (fun k => (max_dependents ns + 1) ^ (ns.length - k))).sum

lemma deps_len_le_max {ns : List (Node T)} :
    ∀ {i : Nat} {nd : Node T}, ns[i]? = some nd →
      nd.dependents.length ≤ max_dependents ns := by
  induction ns with
  | nil => intro i nd h; simp at h
  | cons hd tl ih =>
    intro i nd h
    cases i with
    | zero =>
      simp at h
      subst h
      simp only [max_dependents, List.foldr_cons]
      exact le_max_left _ _
    | succ i' =>
      simp only [List.getElem?_cons_succ] at h
      have := ih h
      simp only [max_dependents, List.foldr_cons]
      exact this.trans (le_max_right _ _)

lemma max_dependents_set {ns : List (Node T)} :
    ∀ {i : Nat} {nd nd' : Node T}, ns[i]? = some nd →
      nd'.dependents = nd.dependents →
      max_dependents (ns.set i nd') = max_dependents ns := by
  induction ns with
  | nil => intro i nd nd' h _; simp at h
  | cons hd tl ih =>
    intro i nd nd' h hdeps
    cases i with
    | zero =>
      simp at h
      subst h
      simp [max_dependents, hdeps]
    | succ i' =>
      simp only [List.getElem?_cons_succ] at h
      simp [max_dependents, List.set]
      have := ih h hdeps
      simp only [max_dependents] at this
      rw [this]

lemma inv_weight_append (ns : List (Node T)) (a b : List Nat) :
    inv_weight ns (a ++ b) = inv_weight ns a + inv_weight ns b := by
  simp [inv_weight]

lemma inv_weight_reverse (ns : List (Node T)) (a : List Nat) :
    inv_weight ns a.reverse = inv_weight ns a := by
  simp [inv_weight, List.map_reverse, List.sum_reverse]

lemma inv_weight_step {ns : List (Node T)} {next : Nat} {nd : Node T}
    {rest : List Nat} (hdu : DepsUpL ns) (h : ns[next]? = some nd) :
    inv_weight ns (nd.dependents.reverse ++ rest) <
      inv_weight ns (next :: rest) := by
  rw [inv_weight_append, inv_weight_reverse]
  have hrest : inv_weight ns (next :: rest) =
      (max_dependents ns + 1) ^ (ns.length - next) + inv_weight ns rest := by
    simp [inv_weight]
  rw [hrest]
  have hkey : inv_weight ns nd.dependents <
      (max_dependents ns + 1) ^ (ns.length - next) := by
    set D := max_dependents ns + 1 with hD
    cases hde : nd.dependents with
    | nil =>
      simp only [inv_weight, hde, List.map_nil, List.sum_nil]
      exact Nat.pos_pow_of_pos _ (by omega)
    | cons d ds =>
      rw [← hde]
      have hnext : next < ns.length := by
        have := hdu next nd h d (by rw [hde]; simp)
        omega
      have hd1 : ∀ j ∈ nd.dependents, D ^ (ns.length - j) ≤
          D ^ (ns.length - next - 1) := by
        intro j hj
        have hjb := hdu next nd h j hj
        exact Nat.pow_le_pow_right (by omega) (by omega)
      have hsum : inv_weight ns nd.dependents ≤
          nd.dependents.length * D ^ (ns.length - next - 1) := by
        rw [inv_weight]
        calc (nd.dependents.map (fun k => D ^ (ns.length - k))).sum
            ≤ (nd.dependents.map (fun _ => D ^ (ns.length - next - 1))).sum := by
              apply List.sum_le_sum
              intro j hj
              exact hd1 j hj
          _ = nd.dependents.length * D ^ (ns.length - next - 1) := by
              simp [List.map_const', mul_comm]
      have hmax : nd.dependents.length ≤ max_dependents ns := deps_len_le_max h
      have hp : 0 < D ^ (ns.length - next - 1) := Nat.pos_pow_of_pos _ (by omega)
      have hlt : nd.dependents.length * D ^ (ns.length - next - 1) <
          D * D ^ (ns.length - next - 1) :=
        (Nat.mul_lt_mul_right hp).2 (by omega)
      have hpow : D * D ^ (ns.length - next - 1) = D ^ (ns.length - next) := by
        rw [← pow_succ']
        congr 1
        omega
      omega
  omega

lemma depsReach_trans {ns : List (Node T)} {a b c : Nat}
    (h1 : DepsReach ns a b) (h2 : DepsReach ns b c) : DepsReach ns a c := by
  induction h2 with
  | refl => exact h1
  | tail _ hmem ih => exact .tail ih hmem

lemma depsReach_head_cases {ns : List (Node T)} {a k : Nat}
    (h : DepsReach ns a k) : k = a ∨ ∃ d ∈ depsOfL ns a, DepsReach ns d k := by
  induction h with
  | refl => exact Or.inl rfl
  | tail _ hmem ih =>
    rcases ih with rfl | ⟨d, hd, hreach⟩
    · exact Or.inr ⟨_, hmem, .refl _⟩
    · exact Or.inr ⟨d, hd, .tail hreach hmem⟩

lemma sameShape_set_cache {ns : List (Node T)} {i : Nat} {nd : Node T}
    (c : Option T) (h : ns[i]? = some nd) :
    SameShape ns (ns.set i { nd with cache := c }) := by
  refine ⟨List.length_set .., fun k nd' hk => ?_⟩
  rw [get_set_node _ h k]
  rcases eq_or_ne k i with rfl | hne
  · rw [if_pos rfl]
    rw [h] at hk
    cases hk
    exact ⟨c, rfl⟩
  · rw [if_neg hne]
    exact ⟨nd'.cache, hk⟩

lemma depsUpL_of_sameShape {ns ns' : List (Node T)} (hs : SameShape ns ns')
    (hdu : DepsUpL ns) : DepsUpL ns' := by
  intro i nd' h j hj
  have : j ∈ depsOfL ns' i := by rw [depsOfL_eq h]; exact hj
  rw [hs.deps_eq] at this
  cases hg : ns[i]? with
  | none => simp [depsOfL, hg] at this
  | some nd =>
    rw [depsOfL_eq hg] at this
    have := hdu i nd hg j this
    rw [hs.len_eq]
    exact this

/-- Full characterisation of the invalidation stack loop: with enough fuel
it terminates, clears exactly the caches of nodes reachable along dependent
edges from the stack, and pops exactly those nodes (possibly repeatedly). -/
lemma invalidate_loop_spec :
    ∀ (fuel : Nat) (ns : List (Node T)) (stack acc : List Nat),
    DepsUpL ns →
    (∀ s ∈ stack, s < ns.length) →
    inv_weight ns stack < fuel →
    ∃ ns' pops,
      invalidate_node_loop fuel ns stack acc = .ok (ns', acc.reverse ++ pops) ∧
      SameShape ns ns' ∧
      (∀ k, ((∃ s ∈ stack, DepsReach ns s k) → cacheOfL ns' k = none) ∧
        (¬ (∃ s ∈ stack, DepsReach ns s k) → cacheOfL ns' k = cacheOfL ns k)) ∧
      (∀ j, j ∈ pops ↔ ∃ s ∈ stack, DepsReach ns s j) := by
  intro fuel
  induction fuel with
  | zero => intro ns stack acc _ _ hw; omega
  | succ fuel ih =>
    intro ns stack acc hdu hb hw
    cases stack with
    | nil =>
      refine ⟨ns, [], by simp [invalidate_node_loop], SameShape.refl ns, ?_, by simp⟩
      intro k
      constructor
      · rintro ⟨s, hs, _⟩; simp at hs
      · intro _; rfl
    | cons next rest =>
      have hnext : next < ns.length := hb next (by simp)
      cases hg : ns[next]? with
      | none =>
        rw [List.getElem?_eq_none_iff] at hg
        omega
      | some nd =>
        set ns1 := ns.set next { nd with cache := none } with hns1
        have hshape1 : SameShape ns ns1 := sameShape_set_cache none hg
        have hdu1 : DepsUpL ns1 := depsUpL_of_sameShape hshape1 hdu
        have hlen1 : ns1.length = ns.length := List.length_set ..
        have hmax1 : max_dependents ns1 = max_dependents ns :=
          max_dependents_set hg rfl
        have hwt : ∀ st, inv_weight ns1 st = inv_weight ns st := by
          intro st
          simp [inv_weight, hmax1, hlen1]
        have hb1 : ∀ s ∈ nd.dependents.reverse ++ rest, s < ns1.length := by
          intro s hs
          rw [hlen1]
          rcases List.mem_append.1 hs with hs' | hs'
          · exact (hdu next nd hg s (List.mem_reverse.1 hs')).2
          · exact hb s (by simp [hs'])
        have hw1 : inv_weight ns1 (nd.dependents.reverse ++ rest) < fuel := by
          rw [hwt]
          have : inv_weight ns (nd.dependents.reverse ++ rest) <
              inv_weight ns (next :: rest) := inv_weight_step hdu hg
          omega
        obtain ⟨ns', pops1, hrun, hshape2, hcache, hpops⟩ :=
          ih ns1 (nd.dependents.reverse ++ rest) (next :: acc) hdu1 hb1 hw1
        -- transfer the reach conditions from ns1 back to ns
        have hreach1 : ∀ a k, DepsReach ns1 a k ↔ DepsReach ns a k :=
          fun a k => hshape1.depsReach_iff
        have hcond : ∀ k, (∃ s ∈ nd.dependents.reverse ++ rest, DepsReach ns s k) ∨
            k = next ↔ ∃ s ∈ next :: rest, DepsReach ns s k := by
          intro k
          constructor
          · rintro (⟨s, hs, hr⟩ | heq)
            · rcases List.mem_append.1 hs with hs' | hs'
              · refine ⟨next, by simp, ?_⟩
                have hstep : DepsReach ns next s :=
                  .tail (.refl next) (by rw [depsOfL_eq hg]; exact List.mem_reverse.1 hs')
                exact depsReach_trans hstep hr
              · exact ⟨s, by simp [hs'], hr⟩
            · exact ⟨next, by simp, by rw [heq]; exact .refl _⟩
          · rintro ⟨s, hs, hr⟩
            rcases List.mem_cons.1 hs with heqs | hs'
            · rw [heqs] at hr
              rcases depsReach_head_cases hr with heqk | ⟨d, hd, hreach⟩
              · exact Or.inr heqk
              · rw [depsOfL_eq hg] at hd
                exact Or.inl ⟨d, List.mem_append.2 (Or.inl (List.mem_reverse.2 hd)), hreach⟩
            · exact Or.inl ⟨s, List.mem_append.2 (Or.inr hs'), hr⟩
        have hcache1 : ∀ k, cacheOfL ns1 k =
            if k = next then none else cacheOfL ns k := by
          intro k
          rw [cacheOfL, get_set_node _ hg k]
          rcases eq_or_ne k next with rfl | hne
          · simp
          · simp [hne]; rfl
        refine ⟨ns', next :: pops1, ?_, hshape1.trans hshape2, ?_, ?_⟩
        · simp only [invalidate_node_loop, hg, ← hns1, hrun]
          simp
        · intro k
          have hstiff : (∃ s ∈ nd.dependents.reverse ++ rest, DepsReach ns1 s k) ↔
              (∃ s ∈ nd.dependents.reverse ++ rest, DepsReach ns s k) := by
            constructor
            · rintro ⟨s, hs, hr⟩; exact ⟨s, hs, (hreach1 s k).1 hr⟩
            · rintro ⟨s, hs, hr⟩; exact ⟨s, hs, (hreach1 s k).2 hr⟩
          constructor
          · intro hc
            rcases (hcond k).2 hc with h' | rfl
            · exact (hcache k).1 (hstiff.2 h')
            · by_cases hC : ∃ s ∈ nd.dependents.reverse ++ rest, DepsReach ns1 s k
              · exact (hcache k).1 hC
              · rw [(hcache k).2 hC, hcache1]
                simp
          · intro hnc
            have hkn : k ≠ next := by
              rintro rfl
              exact hnc ⟨k, by simp, .refl _⟩
            have hC : ¬ ∃ s ∈ nd.dependents.reverse ++ rest, DepsReach ns1 s k := by
              intro hC'
              exact hnc ((hcond k).1 (Or.inl (hstiff.1 hC')))
            rw [(hcache k).2 hC, hcache1, if_neg hkn]
        · intro j
          have hstiff : (∃ s ∈ nd.dependents.reverse ++ rest, DepsReach ns1 s j) ↔
              (∃ s ∈ nd.dependents.reverse ++ rest, DepsReach ns s j) := by
            constructor
            · rintro ⟨s, hs, hr⟩; exact ⟨s, hs, (hreach1 s j).1 hr⟩
            · rintro ⟨s, hs, hr⟩; exact ⟨s, hs, (hreach1 s j).2 hr⟩
          rw [List.mem_cons]
          constructor
          · rintro (rfl | hj)
            · exact ⟨j, by simp, .refl _⟩
            · exact (hcond j).1 (Or.inl (hstiff.1 ((hpops j).1 hj)))
          · intro hc
            rcases (hcond j).2 hc with h' | rfl
            · exact Or.inr ((hpops j).2 (hstiff.2 h'))
            · exact Or.inl rfl

lemma inv_weight_single_lt (ns : List (Node T)) (i : Nat) :
    inv_weight ns [i] < inv_fuel ns := by
  simp only [inv_weight, List.map_cons, List.map_nil, List.sum_cons, List.sum_nil,
    inv_fuel]
  have h : (max_dependents ns + 1) ^ (ns.length - i) ≤
      (max_dependents ns + 1) ^ ns.length :=
    Nat.pow_le_pow_right (by omega) (Nat.sub_le ns.length i)
  omega

/-- Graph-level invalidation: clears exactly the caches of `i` and its
transitive dependents, pops exactly the reachable nodes. -/
lemma invalidate_node_ok {g : CompGraph T} (hdu : DepsUpL g.nodes) {i : Nat}
    (hi : i < g.nodes.length) :
    ∃ g' pops, invalidate_node g i = .ok (g', pops) ∧
      g'.graph_inputs = g.graph_inputs ∧
      SameShape g.nodes g'.nodes ∧
      (∀ k, (DepsReach g.nodes i k → cacheOfL g'.nodes k = none) ∧
        (¬ DepsReach g.nodes i k → cacheOfL g'.nodes k = cacheOfL g.nodes k)) ∧
      (∀ j, j ∈ pops ↔ DepsReach g.nodes i j) := by
  obtain ⟨ns', pops, hrun, hshape, hcache, hpops⟩ :=
    invalidate_loop_spec (inv_fuel g.nodes) g.nodes [i] [] hdu
      (by intro s hs; simp at hs; omega) (inv_weight_single_lt g.nodes i)
  refine ⟨⟨ns', g.graph_inputs⟩, pops, ?_, rfl, hshape, ?_, ?_⟩
  · simp only [invalidate_node, hrun]
    simp
  · intro k
    refine ⟨fun hr => (hcache k).1 ⟨i, by simp, hr⟩, fun hnr => ?_⟩
    apply (hcache k).2
    rintro ⟨s, hs, hr⟩
    simp at hs
    subst hs
    exact hnr hr
  · intro j
    rw [hpops j]
    constructor
    · rintro ⟨s, hs, hr⟩
      simp at hs
      subst hs
      exact hr
    · intro hr
      exact ⟨i, by simp, hr⟩

lemma invalidate_node_oob {g : CompGraph T} {i : Nat} (hi : g.nodes.length ≤ i) :
    invalidate_node g i = .error (.panic msgIndexOob) := by
  have hg : g.nodes[i]? = none := List.getElem?_eq_none_iff.2 hi
  simp only [invalidate_node, inv_fuel, invalidate_node_loop, hg]

lemma set_input_unknown {g : CompGraph T} {name : String} {v : T}
    (h : lookup_input g name = none) :
    set_input g name v = .error (.panic msgNoSuchInput) := by
  simp only [set_input, h]

/-- Characterisation of a successful `set_input`: the input's cache becomes
`some v`, caches of transitive dependents are cleared, all other caches are
untouched. -/
lemma set_input_ok_spec {g : CompGraph T} {name : String} {v : T} {id : Nat}
    (hdu : DepsUpL g.nodes) (hl : lookup_input g name = some id)
    (hi : id < g.nodes.length) :
    ∃ g', set_input g name v = .ok g' ∧
      g'.graph_inputs = g.graph_inputs ∧
      SameShape g.nodes g'.nodes ∧
      cacheOfL g'.nodes id = some v ∧
      (∀ k, k ≠ id → DepsReach g.nodes id k → cacheOfL g'.nodes k = none) ∧
      (∀ k, k ≠ id → ¬ DepsReach g.nodes id k →
        cacheOfL g'.nodes k = cacheOfL g.nodes k) := by
  obtain ⟨g1, pops, hinv, hgi, hshape, hcache, _⟩ := invalidate_node_ok hdu hi
  have hlen : g1.nodes.length = g.nodes.length := hshape.len_eq
  cases hg1 : g1.nodes[id]? with
  | none =>
    rw [List.getElem?_eq_none_iff] at hg1
    omega
  | some nd1 =>
    refine ⟨⟨g1.nodes.set id { nd1 with cache := some v }, g1.graph_inputs⟩,
      ?_, by rw [hgi], ?_, ?_, ?_, ?_⟩
    · simp only [set_input, hl, hinv, hg1]
    · exact hshape.trans (sameShape_set_cache (some v) hg1)
    · show cacheOfL (g1.nodes.set id { nd1 with cache := some v }) id = some v
      rw [cacheOfL, get_set_node _ hg1 id, if_pos rfl]
    · intro k hk hr
      show cacheOfL (g1.nodes.set id { nd1 with cache := some v }) k = none
      rw [cacheOfL, get_set_node _ hg1 k, if_neg hk, ← cacheOfL]
      exact (hcache k).1 hr
    · intro k hk hnr
      show cacheOfL (g1.nodes.set id { nd1 with cache := some v }) k =
        cacheOfL g.nodes k
      rw [cacheOfL, get_set_node _ hg1 k, if_neg hk, ← cacheOfL]
      exact (hcache k).2 hnr

/-! ## Bridging `InputsReach` and `DepsReach` through the edge invariant -/

lemma inputsReach_trans {ns : List (Node T)} {a b c : Nat}
    (h1 : InputsReach ns a b) (h2 : InputsReach ns b c) : InputsReach ns a c := by
  induction h2 with
  | refl => exact h1
  | tail _ hmem ih => exact .tail ih hmem

lemma depsReach_lt {ns : List (Node T)} (hdu : DepsUpL ns) {a b : Nat}
    (ha : a < ns.length) (hr : DepsReach ns a b) : b < ns.length ∧ a ≤ b := by
  induction hr with
  | refl => exact ⟨ha, Nat.le_refl _⟩
  | tail hr' hmem ih =>
    rename_i j k
    cases hg : ns[j]? with
    | none => simp [depsOfL, hg] at hmem
    | some nd =>
      rw [depsOfL_eq hg] at hmem
      have := hdu j nd hg k hmem
      omega

lemma inputsReach_to_depsReach {g : CompGraph T} (hwf : WF g) {a b : Nat}
    (ha : a < g.nodes.length) (hr : InputsReach g.nodes a b) :
    DepsReach g.nodes b a := by
  induction hr with
  | refl => exact .refl _
  | tail hr' hmem ih =>
    rename_i j k
    have hj : j ≤ a := inputsReach_le hwf.inputs_lt hr'
    have hk : k < j := lt_of_mem_inputs hwf.inputs_lt hmem
    have hstep : j ∈ depsOfL g.nodes k :=
      (hwf.edges k j (by omega) (by omega)).2 hmem
    exact depsReach_trans (.tail (.refl k) hstep) ih

lemma depsReach_to_inputsReach {g : CompGraph T} (hwf : WF g) {a b : Nat}
    (ha : a < g.nodes.length) (hr : DepsReach g.nodes a b) :
    InputsReach g.nodes b a := by
  induction hr with
  | refl => exact .refl _
  | tail hr' hmem ih =>
    rename_i j k
    have hjb := depsReach_lt hwf.deps_gt ha hr'
    cases hg : g.nodes[j]? with
    | none => simp [depsOfL, hg] at hmem
    | some nd =>
      rw [depsOfL_eq hg] at hmem
      have hkb := hwf.deps_gt j nd hg k hmem
      have hstep : j ∈ inputsOfL g.nodes k :=
        (hwf.edges j k (by omega) (by omega)).1 (by rw [depsOfL_eq hg]; exact hmem)
      exact inputsReach_trans (.tail (.refl k) hstep) ih

/-! ## Helper lemmas for the evaluator -/

lemma cacheOfL_some_lt {ns : List (Node T)} {i : Nat} {v : T}
    (h : cacheOfL ns i = some v) : i < ns.length := by
  cases hg : ns[i]? with
  | none => rw [cacheOfL_oob hg] at h; cases h
  | some nd => exact lt_of_get_some hg

lemma cacheOfL_take {ns : List (Node T)} {m k : Nat} (h : k < m) :
    cacheOfL (ns.take m) k = cacheOfL ns k := by
  rw [cacheOfL, cacheOfL, List.getElem?_take_of_lt h]

lemma inputsOfL_take {ns : List (Node T)} {m k : Nat} (h : k < m) :
    inputsOfL (ns.take m) k = inputsOfL ns k := by
  rw [inputsOfL, inputsOfL, List.getElem?_take_of_lt h]

lemma wfUpL_of_sameShape {ns ns' : List (Node T)} (hs : SameShape ns ns')
    (hup : WFUpL ns) : WFUpL ns' := by
  intro i nd' h j hj
  have hmem : j ∈ inputsOfL ns' i := by rw [inputsOfL_eq h]; exact hj
  rw [hs.inputs_eq] at hmem
  exact lt_of_mem_inputs hup hmem

lemma wfUpL_take {ns : List (Node T)} (hup : WFUpL ns) (m : Nat) :
    WFUpL (ns.take m) := by
  intro i nd h j hj
  have hi : i < m := by
    have := lt_of_get_some h
    rw [List.length_take] at this
    omega
  rw [List.getElem?_take_of_lt hi] at h
  exact hup i nd h j hj

lemma cacheInvL_take {ns : List (Node T)} (hup : WFUpL ns) (hci : CacheInvL ns)
    (m : Nat) : CacheInvL (ns.take m) := by
  intro i v hc
  have hi : i < m := by
    have := cacheOfL_some_lt hc
    rw [List.length_take] at this
    omega
  rw [cacheOfL_take hi] at hc
  rw [denotL_take hup hi]
  exact hci i v hc

lemma ancCachedL_take {ns : List (Node T)} (hup : WFUpL ns) (han : AncCachedL ns)
    (m : Nat) : AncCachedL (ns.take m) := by
  intro i v hc j hj
  have hi : i < m := by
    have := cacheOfL_some_lt hc
    rw [List.length_take] at this
    omega
  rw [cacheOfL_take hi] at hc
  rw [inputsOfL_take hi] at hj
  have hji : j < i := lt_of_mem_inputs hup hj
  obtain ⟨w, hw⟩ := han i v hc j hj
  exact ⟨w, by rwa [cacheOfL_take (by omega)]⟩

lemma inputsReach_take_iff {ns : List (Node T)} (hup : WFUpL ns) {m i k : Nat}
    (hi : i < m) : InputsReach (ns.take m) i k ↔ InputsReach ns i k := by
  constructor
  · intro h
    induction h with
    | refl => exact .refl _
    | tail hr hmem ih =>
      rename_i j k'
      have hj : j ≤ i := inputsReach_le (wfUpL_take hup m) hr
      rw [inputsOfL_take (by omega)] at hmem
      exact .tail ih hmem
  · intro h
    induction h with
    | refl => exact .refl _
    | tail hr hmem ih =>
      rename_i j k'
      have hj : j ≤ i := inputsReach_le hup hr
      rw [← inputsOfL_take (show j < m by omega)] at hmem
      exact .tail ih hmem

lemma inputsReach_head_cases {ns : List (Node T)} {a k : Nat}
    (h : InputsReach ns a k) :
    k = a ∨ ∃ j ∈ inputsOfL ns a, InputsReach ns j k := by
  induction h with
  | refl => exact Or.inl rfl
  | tail _ hmem ih =>
    rcases ih with heq | ⟨j, hj, hreach⟩
    · exact Or.inr ⟨_, heq ▸ hmem, .refl _⟩
    · exact Or.inr ⟨j, hj, .tail hreach hmem⟩

/-- Downward propagation of "cached" through `AncCachedL`. -/
lemma cached_reach {ns : List (Node T)} (han : AncCachedL ns) {i k : Nat} {v : T}
    (hc : cacheOfL ns i = some v) (hr : InputsReach ns i k) :
    ∃ w, cacheOfL ns k = some w := by
  induction hr with
  | refl => exact ⟨v, hc⟩
  | tail _ hmem ih =>
    obtain ⟨w, hw⟩ := ih
    exact han _ w hw _ hmem

/-- At a stale node, the denotation is the operation applied to the
denotations of the declared inputs. -/
lemma denotL_stale_op {ns : List (Node T)} {i : Nat} {nd : Node T} {ws : List T}
    (hup : WFUpL ns) (h : ns[i]? = some nd) (hc : nd.cache = none)
    (hm : mapME (denotL ns) nd.node_inputs = .ok ws) :
    denotL ns i = nd.op ws := by
  rw [denotL_unfold hup h]
  cases hin : nd.node_inputs with
  | nil =>
    rw [hin] at hm
    simp only [mapME] at hm
    cases hm
    cases hoe : nd.op [] with
    | ok v => simp [hoe]
    | error e => simp [hoe, hc]
  | cons a as =>
    rw [hin] at hm
    simp [hm]

/-- When a declared-input denotation fails, the node's denotation fails with
the same error (the node is necessarily not a leaf). -/
lemma denotL_stale_err {ns : List (Node T)} {i : Nat} {nd : Node T} {e : EvalErr}
    (hup : WFUpL ns) (h : ns[i]? = some nd)
    (hm : mapME (denotL ns) nd.node_inputs = .error e) :
    denotL ns i = .error e := by
  rw [denotL_unfold hup h]
  cases hin : nd.node_inputs with
  | nil =>
    rw [hin] at hm
    simp only [mapME] at hm
    cases hm
  | cons a as =>
    rw [hin] at hm
    simp [hm]

/-- Postcondition of a successful `calculate_loop` run from a consistent
arena: caches only grow, every filled cache holds the node's denotation,
untouched stale nodes stay stale, and the invocation trace lists exactly the
stale reachable nodes, each once, inputs before dependents. -/
structure PostCalc (ns : List (Node T)) (ins : List Nat)
    (ns' : List (Node T)) (tr : List Nat) : Prop where
  shape : SameShape ns ns'
  keep : ∀ k v, cacheOfL ns k = some v → cacheOfL ns' k = some v
  fill : ∀ k, cacheOfL ns k = none → InsReach ns ins k →
    ∃ v, denotL ns k = .ok v ∧ cacheOfL ns' k = some v
  frame : ∀ k, cacheOfL ns k = none → ¬ InsReach ns ins k → cacheOfL ns' k = none
  nodup : tr.Nodup
  mem_tr : ∀ k, k ∈ tr ↔ (cacheOfL ns k = none ∧ InsReach ns ins k)
  topo : tr.Pairwise (fun a b => b ∉ inputsOfL ns a)

lemma PostCalc.rev {ns ns' : List (Node T)} {ins tr : List Nat}
    (hp : PostCalc ns ins ns' tr) :
    ∀ k v, cacheOfL ns' k = some v →
      cacheOfL ns k = some v ∨ denotL ns k = .ok v := by
  intro k v hv
  cases hcc : cacheOfL ns k with
  | some u =>
    have h := hp.keep k u hcc
    rw [h] at hv
    cases hv
    exact Or.inl rfl
  | none =>
    by_cases hr : InsReach ns ins k
    · obtain ⟨w, hw, hcw⟩ := hp.fill k hcc hr
      rw [hcw] at hv
      cases hv
      exact Or.inr hw
    · have h := hp.frame k hcc hr
      rw [h] at hv
      cases hv

lemma PostCalc.denot_eq {ns ns' : List (Node T)} {ins tr : List Nat}
    (hp : PostCalc ns ins ns' tr) : ∀ k, denotL ns' k = denotL ns k :=
  denotL_cache_congr hp.shape hp.keep hp.rev

lemma PostCalc.cacheInv {ns ns' : List (Node T)} {ins tr : List Nat}
    (hp : PostCalc ns ins ns' tr) (hci : CacheInvL ns) : CacheInvL ns' := by
  intro k v hv
  rw [hp.denot_eq]
  rcases hp.rev k v hv with h | h
  · exact hci k v h
  · exact h

lemma PostCalc.ancCached {ns ns' : List (Node T)} {ins tr : List Nat}
    (hp : PostCalc ns ins ns' tr) (han : AncCachedL ns) : AncCachedL ns' := by
  intro k v hv j hj
  rw [hp.shape.inputs_eq] at hj
  cases hcc : cacheOfL ns k with
  | some u =>
    obtain ⟨w, hw⟩ := han k u hcc j hj
    exact ⟨w, hp.keep j w hw⟩
  | none =>
    by_cases hr : InsReach ns ins k
    · have hrj : InsReach ns ins j := by
        obtain ⟨s, hs, hrs⟩ := hr
        exact ⟨s, hs, .tail hrs hj⟩
      cases hcj : cacheOfL ns j with
      | some u => exact ⟨u, hp.keep j u hcj⟩
      | none =>
        obtain ⟨w, _, hcw⟩ := hp.fill j hcj hrj
        exact ⟨w, hcw⟩
    · have h := hp.frame k hcc hr
      rw [h] at hv
      cases hv

lemma calculate_loop_nil_spec (fuel : Nat) (ns : List (Node T)) :
    calculate_loop fuel ns [] = .ok (ns, []) ∧ PostCalc ns [] ns [] := by
  constructor
  · simp [calculate_loop]
  · refine ⟨SameShape.refl ns, fun k v h => h, ?_, fun k h _ => h,
      List.nodup_nil, ?_, List.Pairwise.nil⟩
    · rintro k _ ⟨s, hs, _⟩
      simp at hs
    · intro k
      simp only [List.not_mem_nil, false_iff, not_and]
      rintro _ ⟨s, hs, _⟩
      simp at hs

/-- Main specification of the evaluation loop: with enough fuel, on a
consistent arena, the loop either propagates the first denotation error or
succeeds with the `PostCalc` postcondition. -/
theorem calculate_loop_spec :
    ∀ (fuel : Nat) (ns : List (Node T)) (ins : List Nat),
    WFUpL ns → CacheInvL ns → AncCachedL ns →
    ns.length ≤ fuel → (∀ i ∈ ins, i < ns.length) →
    (∀ e, mapME (denotL ns) ins = .error e → calculate_loop fuel ns ins = .error e) ∧
    (∀ vs, mapME (denotL ns) ins = .ok vs →
      ∃ ns' tr, calculate_loop fuel ns ins = .ok (ns', tr) ∧ PostCalc ns ins ns' tr) := by
  intro fuel
  induction fuel with
  | zero =>
    intro ns ins hup hci han hf hb
    have hns : ns = [] := List.length_eq_zero.1 (by omega)
    subst hns
    cases ins with
    | nil =>
      obtain ⟨hrun, hpc⟩ := calculate_loop_nil_spec 0 ([] : List (Node T))
      constructor
      · intro e he
        simp [mapME] at he
      · intro vs hvs
        simp only [mapME] at hvs
        cases hvs
        exact ⟨[], [], hrun, hpc⟩
    | cons i rest =>
      have := hb i (by simp)
      simp at this
  | succ fuel ihf =>
    intro ns ins
    induction ins generalizing ns with
    | nil =>
      intro hup hci han hf hb
      obtain ⟨hrun, hpc⟩ := calculate_loop_nil_spec (fuel + 1) ns
      constructor
      · intro e he
        simp [mapME] at he
      · intro vs hvs
        simp only [mapME] at hvs
        cases hvs
        exact ⟨ns, [], hrun, hpc⟩
    | cons i rest ihr =>
      intro hup hci han hf hb
      have hi : i < ns.length := hb i (by simp)
      cases hg : ns[i]? with
      | none =>
        rw [List.getElem?_eq_none_iff] at hg
        omega
      | some nd =>
        cases hcn : nd.cache with
        | some v =>
          have hdi : denotL ns i = .ok v := hci i v (by rw [cacheOfL_eq hg, hcn])
          have hloop : calculate_loop (fuel + 1) ns (i :: rest) =
              calculate_loop (fuel + 1) ns rest := by
            simp only [calculate_loop, hg, hcn]
          obtain ⟨herr, hok⟩ := ihr ns hup hci han hf (fun j hj => hb j (by simp [hj]))
          have hstiff : ∀ k, cacheOfL ns k = none →
              (InsReach ns (i :: rest) k ↔ InsReach ns rest k) := by
            intro k hk
            constructor
            · rintro ⟨s, hs, hr⟩
              rcases List.mem_cons.1 hs with heq | hs'
              · exfalso
                rw [heq] at hr
                obtain ⟨w, hw⟩ := cached_reach han (v := v)
                  (by rw [cacheOfL_eq hg, hcn]) hr
                rw [hk] at hw
                cases hw
              · exact ⟨s, hs', hr⟩
            · rintro ⟨s, hs, hr⟩
              exact ⟨s, by simp [hs], hr⟩
          constructor
          · intro e he
            rw [hloop]
            apply herr
            simp only [mapME, hdi] at he
            cases hmr : mapME (denotL ns) rest with
            | error e' =>
              rw [hmr] at he
              injection he with he2
              rw [← he2]
            | ok vs =>
              rw [hmr] at he
              cases he
          · intro vs hvs
            simp only [mapME, hdi] at hvs
            cases hmr : mapME (denotL ns) rest with
            | error e =>
              rw [hmr] at hvs
              cases hvs
            | ok vs' =>
              rw [hmr] at hvs
              cases hvs
              obtain ⟨ns', tr, hrun, hpc⟩ := hok vs' hmr
              rw [hloop]
              refine ⟨ns', tr, hrun, ?_⟩
              exact {
                shape := hpc.shape
                keep := hpc.keep
                fill := fun k hk hr => hpc.fill k hk ((hstiff k hk).1 hr)
                frame := fun k hk hr => hpc.frame k hk fun hr' => hr ((hstiff k hk).2 hr')
                nodup := hpc.nodup
                mem_tr := fun k => by
                  rw [hpc.mem_tr k]
                  constructor
                  · rintro ⟨hk, hr⟩
                    exact ⟨hk, (hstiff k hk).2 hr⟩
                  · rintro ⟨hk, hr⟩
                    exact ⟨hk, (hstiff k hk).1 hr⟩
                topo := hpc.topo }
        | none =>
          have hfuelsub : (ns.take i).length ≤ fuel := by
            rw [List.length_take]
            omega
          have hbsub : ∀ j ∈ nd.node_inputs, j < (ns.take i).length := by
            intro j hj
            rw [List.length_take]
            have := hup i nd hg j hj
            omega
          obtain ⟨herr1, hok1⟩ := ihf (ns.take i) nd.node_inputs (wfUpL_take hup i)
            (cacheInvL_take hup hci i) (ancCachedL_take hup han i) hfuelsub hbsub
          have hmapsub : mapME (denotL (ns.take i)) nd.node_inputs =
              mapME (denotL ns) nd.node_inputs :=
            mapME_congr fun j hj => denotL_take hup (hup i nd hg j hj)
          have hunfold : calculate_loop (fuel + 1) ns (i :: rest) =
              match calculate_loop fuel (ns.take i) nd.node_inputs with
              | .error e => .error e
              | .ok (before, tr1) =>
                match collect_values before nd.node_inputs with
                | .error e => .error e
                | .ok vs =>
                  match nd.op vs with
                  | .error e => .error e
                  | .ok v =>
                    match calculate_loop (fuel + 1)
                        ((before ++ ns.drop i).set i { nd with cache := some v })
                        rest with
                    | .error e => .error e
                    | .ok (head2, tr2) => .ok (head2, tr1 ++ i :: tr2) := by
            simp only [calculate_loop, hg, hcn]
          cases hms : mapME (denotL ns) nd.node_inputs with
          | error e =>
            have hde : denotL ns i = .error e := denotL_stale_err hup hg hms
            have hsub : calculate_loop fuel (ns.take i) nd.node_inputs = .error e :=
              herr1 e (by rw [hmapsub]; exact hms)
            have hloopres : calculate_loop (fuel + 1) ns (i :: rest) = .error e := by
              rw [hunfold]
              simp only [hsub]
            constructor
            · intro e' he'
              simp only [mapME, hde] at he'
              injection he' with he2
              rw [← he2]
              exact hloopres
            · intro vs hvs
              simp only [mapME, hde] at hvs
              cases hvs
          | ok ws =>
            obtain ⟨before, tr1, hsubrun, hpc1⟩ := hok1 ws (by rw [hmapsub]; exact hms)
            have hblen : before.length = i := by
              have h := hpc1.shape.len_eq
              rw [List.length_take] at h
              omega
            have hcollect : ∀ j ∈ nd.node_inputs, ∀ wj, denotL ns j = .ok wj →
                cacheOfL before j = some wj := by
              intro j hj wj hwj
              have hji : j < i := hup i nd hg j hj
              cases hcj : cacheOfL (ns.take i) j with
              | some u =>
                have hkeep := hpc1.keep j u hcj
                have hdu := cacheInvL_take hup hci i j u hcj
                rw [denotL_take hup hji, hwj] at hdu
                injection hdu with hdu2
                rw [hdu2]
                exact hkeep
              | none =>
                obtain ⟨w, hw, hcw⟩ := hpc1.fill j hcj ⟨j, hj, .refl _⟩
                rw [denotL_take hup hji, hwj] at hw
                injection hw with hw2
                rw [hw2]
                exact hcw
            have hcv : collect_values before nd.node_inputs = .ok ws := by
              rw [← hms]
              simp only [collect_values]
              apply mapME_congr
              intro j hj
              obtain ⟨wj, hwj⟩ := mapME_ok_mem hms j hj
              have hcb := hcollect j hj wj hwj
              cases hbj : before[j]? with
              | none => rw [cacheOfL, hbj] at hcb; cases hcb
              | some ndj =>
                rw [cacheOfL_eq hbj] at hcb
                simp [hbj, hcb, hwj]
            have hopden : nd.op ws = denotL ns i :=
              (denotL_stale_op hup hg hcn hms).symm
            cases hov : nd.op ws with
            | error e =>
              have hde : denotL ns i = .error e := by rw [← hopden, hov]
              have hloopres : calculate_loop (fuel + 1) ns (i :: rest) = .error e := by
                rw [hunfold]
                simp only [hsubrun, hcv, hov]
              constructor
              · intro e' he'
                simp only [mapME, hde] at he'
                injection he' with he2
                rw [← he2]
                exact hloopres
              · intro vs hvs
                simp only [mapME, hde] at hvs
                cases hvs
            | ok v =>
              have hdi : denotL ns i = .ok v := by rw [← hopden, hov]
              have hXlen : (before ++ ns.drop i).length = ns.length := by
                rw [List.length_append, hblen, List.length_drop]
                omega
              set ns1 := (before ++ ns.drop i).set i { nd with cache := some v }
                with hns1def
              have hns1len : ns1.length = ns.length := by
                rw [hns1def, List.length_set, hXlen]
              have hget1 : ∀ k, ns1[k]? =
                  if k = i then some { nd with cache := some v }
                  else if k < i then before[k]? else ns[k]? := by
                intro k
                rcases eq_or_ne k i with rfl | hne
                · rw [if_pos rfl, hns1def]
                  exact List.getElem?_set_eq_of_lt _ (by rw [hXlen]; omega)
                · rw [if_neg hne, hns1def, List.getElem?_set_ne (by omega : i ≠ k)]
                  rcases Nat.lt_or_ge k i with hlt | hge
                  · rw [if_pos hlt]
                    exact List.getElem?_append_left (by omega)
                  · rw [if_neg (by omega)]
                    rw [List.getElem?_append_right (by omega), hblen,
                      List.getElem?_drop]
                    congr 1
                    omega
              have hcache1 : ∀ k, cacheOfL ns1 k =
                  if k = i then some v
                  else if k < i then cacheOfL before k else cacheOfL ns k := by
                intro k
                rw [cacheOfL, hget1 k]
                rcases eq_or_ne k i with rfl | hne
                · simp
                · rcases Nat.lt_or_ge k i with hlt | hge
                  · simp only [if_neg hne, if_pos hlt]
                    rfl
                  · simp only [if_neg hne, if_neg (by omega : ¬ k < i)]
                    rfl
              have htakec : ∀ k, k < i → cacheOfL (ns.take i) k = cacheOfL ns k :=
                fun k hk => cacheOfL_take hk
              have hshape01 : SameShape ns ns1 := by
                refine ⟨by rw [hns1len], fun k nd0 hk => ?_⟩
                rw [hget1 k]
                rcases eq_or_ne k i with rfl | hne
                · rw [if_pos rfl]
                  rw [hg] at hk
                  cases hk
                  exact ⟨some v, rfl⟩
                · rw [if_neg hne]
                  rcases Nat.lt_or_ge k i with hlt | hge
                  · rw [if_pos hlt]
                    have hk' : (ns.take i)[k]? = some nd0 := by
                      rw [List.getElem?_take_of_lt hlt]
                      exact hk
                    exact hpc1.shape.shape k nd0 hk'
                  · rw [if_neg (by omega)]
                    exact ⟨nd0.cache, hk⟩
              have hkeep01 : ∀ k w, cacheOfL ns k = some w →
                  cacheOfL ns1 k = some w := by
                intro k w hk
                rw [hcache1 k]
                rcases eq_or_ne k i with rfl | hne
                · rw [cacheOfL_eq hg, hcn] at hk
                  cases hk
                · rw [if_neg hne]
                  rcases Nat.lt_or_ge k i with hlt | hge
                  · rw [if_pos hlt]
                    exact hpc1.keep k w (by rw [htakec k hlt]; exact hk)
                  · rw [if_neg (by omega)]
                    exact hk
              have hrev01 : ∀ k w, cacheOfL ns1 k = some w →
                  cacheOfL ns k = some w ∨ denotL ns k = .ok w := by
                intro k w hk
                rw [hcache1 k] at hk
                rcases eq_or_ne k i with rfl | hne
                · rw [if_pos rfl] at hk
                  cases hk
                  exact Or.inr hdi
                · rw [if_neg hne] at hk
                  rcases Nat.lt_or_ge k i with hlt | hge
                  · rw [if_pos hlt] at hk
                    rcases hpc1.rev k w hk with h' | h'
                    · rw [htakec k hlt] at h'
                      exact Or.inl h'
                    · rw [denotL_take hup hlt] at h'
                      exact Or.inr h'
                  · rw [if_neg (by omega)] at hk
                    exact Or.inl hk
              have hdeq : ∀ k, denotL ns1 k = denotL ns k :=
                denotL_cache_congr hshape01 hkeep01 hrev01
              have hup1 : WFUpL ns1 := wfUpL_of_sameShape hshape01 hup
              have hci1 : CacheInvL ns1 := by
                intro k w hk
                rw [hdeq k]
                rcases hrev01 k w hk with h' | h'
                · exact hci k w h'
                · exact h'
              have hanb : AncCachedL before :=
                hpc1.ancCached (ancCachedL_take hup han i)
              have han1 : AncCachedL ns1 := by
                intro k w hk j hj
                rw [hshape01.inputs_eq] at hj
                rw [hcache1 k] at hk
                rcases eq_or_ne k i with heq | hne
                · rw [heq, inputsOfL_eq hg] at hj
                  obtain ⟨wj, hwj⟩ := mapME_ok_mem hms j hj
                  have hjc := hcollect j hj wj hwj
                  have hji : j < i := hup i nd hg j hj
                  refine ⟨wj, ?_⟩
                  rw [hcache1 j, if_neg (by omega), if_pos hji]
                  exact hjc
                · rw [if_neg hne] at hk
                  rcases Nat.lt_or_ge k i with hlt | hge
                  · rw [if_pos hlt] at hk
                    have hj' : j ∈ inputsOfL before k := by
                      rw [hpc1.shape.inputs_eq, inputsOfL_take hlt]
                      exact hj
                    obtain ⟨wj, hwj⟩ := hanb k w hk j hj'
                    have hji : j < k := lt_of_mem_inputs hup hj
                    refine ⟨wj, ?_⟩
                    rw [hcache1 j, if_neg (by omega), if_pos (by omega)]
                    exact hwj
                  · rw [if_neg (by omega)] at hk
                    obtain ⟨wj, hwj⟩ := han k w hk j hj
                    exact ⟨wj, hkeep01 j wj hwj⟩
              obtain ⟨herr2, hok2⟩ := ihr ns1 hup1 hci1 han1
                (by rw [hns1len]; exact hf)
                (fun j hj => by rw [hns1len]; exact hb j (by simp [hj]))
              have hmaprest : mapME (denotL ns1) rest = mapME (denotL ns) rest :=
                mapME_congr fun j _ => hdeq j
              cases hmr : mapME (denotL ns) rest with
              | error e2 =>
                have hrest : calculate_loop (fuel + 1) ns1 rest = .error e2 :=
                  herr2 e2 (by rw [hmaprest]; exact hmr)
                have hloopres : calculate_loop (fuel + 1) ns (i :: rest) =
                    .error e2 := by
                  rw [hunfold]
                  simp only [hsubrun, hcv, hov, ← hns1def, hrest]
                constructor
                · intro e' he'
                  simp only [mapME, hdi, hmr] at he'
                  injection he' with he2
                  rw [← he2]
                  exact hloopres
                · intro vs hvs
                  simp only [mapME, hdi, hmr] at hvs
                  cases hvs
              | ok vs2 =>
                obtain ⟨ns2, tr2, hrestrun, hpc2⟩ := hok2 vs2
                  (by rw [hmaprest]; exact hmr)
                have hloopres : calculate_loop (fuel + 1) ns (i :: rest) =
                    .ok (ns2, tr1 ++ i :: tr2) := by
                  rw [hunfold]
                  simp only [hsubrun, hcv, hov, ← hns1def, hrestrun]
                constructor
                · intro e' he'
                  simp only [mapME, hdi, hmr] at he'
                  cases he'
                · intro vs hvs
                  simp only [mapME, hdi, hmr] at hvs
                  cases hvs
                  refine ⟨ns2, tr1 ++ i :: tr2, hloopres, ?_⟩
                  have hreach1 : ∀ a k, InputsReach ns1 a k ↔ InputsReach ns a k :=
                    fun a k => hshape01.inputsReach_iff
                  have hinsr : ∀ k, InsReach ns1 rest k ↔ InsReach ns rest k := by
                    intro k
                    constructor
                    · rintro ⟨s, hs, hr⟩
                      exact ⟨s, hs, (hreach1 s k).1 hr⟩
                    · rintro ⟨s, hs, hr⟩
                      exact ⟨s, hs, (hreach1 s k).2 hr⟩
                  have hlift : ∀ k, (∃ j ∈ nd.node_inputs, InputsReach ns j k) →
                      InputsReach ns i k := by
                    rintro k ⟨j, hj, hr⟩
                    exact inputsReach_trans
                      (.tail (.refl i) (by rw [inputsOfL_eq hg]; exact hj)) hr
                  have htreach : ∀ j k, j < i →
                      (InputsReach (ns.take i) j k ↔ InputsReach ns j k) :=
                    fun j k hj => inputsReach_take_iff hup hj
                  have htr1lt : ∀ a ∈ tr1, a < i := by
                    intro a ha
                    obtain ⟨hst, j, hj, hr⟩ := (hpc1.mem_tr a).1 ha
                    have hji := hbsub j hj
                    have hle : a ≤ j := inputsReach_le (wfUpL_take hup i) hr
                    rw [List.length_take] at hji
                    omega
                  have htr1fill : ∀ a ∈ tr1, ∃ w, cacheOfL before a = some w := by
                    intro a ha
                    obtain ⟨hst, hr⟩ := (hpc1.mem_tr a).1 ha
                    obtain ⟨w, _, hcw⟩ := hpc1.fill a hst hr
                    exact ⟨w, hcw⟩
                  refine ⟨hshape01.trans hpc2.shape, ?_, ?_, ?_, ?_, ?_, ?_⟩
                  · intro k w hk
                    exact hpc2.keep k w (hkeep01 k w hk)
                  · intro k hk hr
                    obtain ⟨s, hs, hrs⟩ := hr
                    rcases List.mem_cons.1 hs with heqs | hs'
                    · rw [heqs] at hrs
                      rcases inputsReach_head_cases hrs with heqk | ⟨j, hj, hrj⟩
                      · refine ⟨v, by rw [heqk]; exact hdi, ?_⟩
                        apply hpc2.keep
                        rw [hcache1 k, if_pos heqk]
                      · rw [inputsOfL_eq hg] at hj
                        have hji : j < i := hup i nd hg j hj
                        have hki : k < i := by
                          have := inputsReach_le hup hrj
                          omega
                        have hst : cacheOfL (ns.take i) k = none := by
                          rw [htakec k hki]
                          exact hk
                        obtain ⟨w, hw, hcw⟩ := hpc1.fill k hst
                          ⟨j, hj, (htreach j k hji).2 hrj⟩
                        rw [denotL_take hup hki] at hw
                        refine ⟨w, hw, ?_⟩
                        apply hpc2.keep
                        rw [hcache1 k, if_neg (by omega), if_pos hki]
                        exact hcw
                    · cases hk1 : cacheOfL ns1 k with
                      | some w =>
                        rcases hrev01 k w hk1 with h' | h'
                        · rw [hk] at h'
                          cases h'
                        · exact ⟨w, h', hpc2.keep k w hk1⟩
                      | none =>
                        obtain ⟨w, hw, hcw⟩ := hpc2.fill k hk1
                          ⟨s, hs', (hreach1 s k).2 hrs⟩
                        rw [hdeq k] at hw
                        exact ⟨w, hw, hcw⟩
                  · intro k hk hnr
                    have hkni : k ≠ i := by
                      rintro rfl
                      exact hnr ⟨k, by simp, .refl _⟩
                    have hns1k : cacheOfL ns1 k = none := by
                      rw [hcache1 k, if_neg hkni]
                      rcases Nat.lt_or_ge k i with hlt | hge
                      · rw [if_pos hlt]
                        apply hpc1.frame k (by rw [htakec k hlt]; exact hk)
                        rintro ⟨j, hj, hrj⟩
                        have hji : j < i := by
                          have := hbsub j hj
                          rw [List.length_take] at this
                          omega
                        exact hnr ⟨i, by simp,
                          hlift k ⟨j, hj, (htreach j k hji).1 hrj⟩⟩
                      · rw [if_neg (by omega)]
                        exact hk
                    apply hpc2.frame k hns1k
                    intro hr'
                    obtain ⟨s, hs, hrs⟩ := (hinsr k).1 hr'
                    exact hnr ⟨s, by simp [hs], hrs⟩
                  · rw [List.nodup_append]
                    refine ⟨hpc1.nodup, ?_, ?_⟩
                    · rw [List.nodup_cons]
                      constructor
                      · intro hi2
                        obtain ⟨hst, _⟩ := (hpc2.mem_tr i).1 hi2
                        rw [hcache1 i, if_pos rfl] at hst
                        cases hst
                      · exact hpc2.nodup
                    · intro a ha hb
                      have halt : a < i := htr1lt a ha
                      rcases List.mem_cons.1 hb with heqa | hb'
                      · omega
                      · obtain ⟨hst2, _⟩ := (hpc2.mem_tr a).1 hb'
                        obtain ⟨w, hw⟩ := htr1fill a ha
                        rw [hcache1 a, if_neg (by omega), if_pos halt, hw] at hst2
                        cases hst2
                  · intro k
                    rw [List.mem_append, List.mem_cons]
                    constructor
                    · rintro (hk1 | heqk | hk2)
                      · obtain ⟨hst, hr⟩ := (hpc1.mem_tr k).1 hk1
                        have hklt : k < i := htr1lt k hk1
                        obtain ⟨j, hj, hrj⟩ := hr
                        have hji : j < i := by
                          have := hbsub j hj
                          rw [List.length_take] at this
                          omega
                        exact ⟨by rw [← htakec k hklt]; exact hst,
                          ⟨i, by simp, hlift k ⟨j, hj, (htreach j k hji).1 hrj⟩⟩⟩
                      · refine ⟨?_, ⟨i, by simp, by rw [heqk]; exact .refl _⟩⟩
                        rw [heqk, cacheOfL_eq hg]
                        exact hcn
                      · obtain ⟨hst2, hr2⟩ := (hpc2.mem_tr k).1 hk2
                        have hstns : cacheOfL ns k = none := by
                          cases hcc : cacheOfL ns k with
                          | none => rfl
                          | some w =>
                            rw [hkeep01 k w hcc] at hst2
                            cases hst2
                        obtain ⟨s, hs, hrs⟩ := (hinsr k).1 hr2
                        exact ⟨hstns, ⟨s, by simp [hs], hrs⟩⟩
                    · rintro ⟨hk, s, hs, hrs⟩
                      rcases List.mem_cons.1 hs with heqs | hs'
                      · rw [heqs] at hrs
                        rcases inputsReach_head_cases hrs with heqk | ⟨j, hj, hrj⟩
                        · exact Or.inr (Or.inl heqk)
                        · rw [inputsOfL_eq hg] at hj
                          have hji : j < i := hup i nd hg j hj
                          have hki : k < i := by
                            have := inputsReach_le hup hrj
                            omega
                          refine Or.inl ((hpc1.mem_tr k).2
                            ⟨?_, j, hj, (htreach j k hji).2 hrj⟩)
                          rw [htakec k hki]
                          exact hk
                      · by_cases hk1 : k ∈ tr1
                        · exact Or.inl hk1
                        · rcases eq_or_ne k i with heqk | hne
                          · exact Or.inr (Or.inl heqk)
                          · refine Or.inr (Or.inr ((hpc2.mem_tr k).2
                              ⟨?_, (hinsr k).2 ⟨s, hs', hrs⟩⟩))
                            rw [hcache1 k, if_neg hne]
                            rcases Nat.lt_or_ge k i with hlt | hge
                            · rw [if_pos hlt]
                              apply hpc1.frame k (by rw [htakec k hlt]; exact hk)
                              intro hr'
                              exact hk1 ((hpc1.mem_tr k).2
                                ⟨by rw [htakec k hlt]; exact hk, hr'⟩)
                            · rw [if_neg (by omega)]
                              exact hk
                  · rw [List.pairwise_append]
                    refine ⟨?_, ?_, ?_⟩
                    · refine List.Pairwise.imp_of_mem ?_ hpc1.topo
                      intro a b ha hb hnotin
                      have halt : a < i := htr1lt a ha
                      rw [inputsOfL_take halt] at hnotin
                      exact hnotin
                    · rw [List.pairwise_cons]
                      constructor
                      · intro b hb hbin
                        rw [inputsOfL_eq hg] at hbin
                        obtain ⟨wb, hwb⟩ := mapME_ok_mem hms b hbin
                        have hcb := hcollect b hbin wb hwb
                        obtain ⟨hst2, _⟩ := (hpc2.mem_tr b).1 hb
                        have hbi : b < i := hup i nd hg b hbin
                        rw [hcache1 b, if_neg (by omega), if_pos hbi, hcb] at hst2
                        cases hst2
                      · refine List.Pairwise.imp ?_ hpc2.topo
                        intro a b hnotin
                        rw [hshape01.inputs_eq] at hnotin
                        exact hnotin
                    · intro a ha b hb hbin
                      have halt : a < i := htr1lt a ha
                      have hba : b < a := lt_of_mem_inputs hup hbin
                      rcases List.mem_cons.1 hb with heqb | hb'
                      · omega
                      · obtain ⟨wa, hwa⟩ := htr1fill a ha
                        have hbmem : b ∈ inputsOfL before a := by
                          rw [hpc1.shape.inputs_eq, inputsOfL_take halt]
                          exact hbin
                        obtain ⟨wb, hwb⟩ := hanb a wa hwa b hbmem
                        obtain ⟨hst2, _⟩ := (hpc2.mem_tr b).1 hb'
                        rw [hcache1 b, if_neg (by omega), if_pos (by omega), hwb]
                          at hst2
                        cases hst2

/-- A node's denotation only depends on the caches of nodes in its
declared-input cone. -/
lemma denotAux_cone {ns ns' : List (Node T)} (hs : SameShape ns ns') :
    ∀ (f k0 : Nat), (∀ m, InputsReach ns k0 m → cacheOfL ns' m = cacheOfL ns m) →
    denotAux ns' f k0 = denotAux ns f k0 := by
  intro f
  induction f with
  | zero => intro k0 _; simp [denotAux]
  | succ f ihf =>
    intro k0 hag
    cases h : ns[k0]? with
    | none =>
      have h2 : ns'[k0]? = none := hs.get_none h
      simp [denotAux, h, h2]
    | some nd =>
      obtain ⟨c, hc⟩ := hs.shape k0 nd h
      have hceq : c = nd.cache := by
        have := hag k0 (.refl _)
        rw [cacheOfL_eq hc, cacheOfL_eq h] at this
        exact this
      cases hin : nd.node_inputs with
      | nil => simp [denotAux, h, hc, hceq, hin]
      | cons a as =>
        have hlist : denotListAux ns' f (a :: as) = denotListAux ns f (a :: as) := by
          rw [denotListAux_eq_mapME, denotListAux_eq_mapME]
          apply mapME_congr
          intro j hj
          apply ihf j
          intro m hm
          apply hag m
          refine inputsReach_trans (.tail (.refl k0) ?_) hm
          rw [inputsOfL_eq h, hin]
          exact hj
        simp only [denotAux, h, hc, hceq, hin, hlist]

lemma denotL_cone {ns ns' : List (Node T)} (hs : SameShape ns ns') {k0 : Nat}
    (hag : ∀ m, InputsReach ns k0 m → cacheOfL ns' m = cacheOfL ns m) :
    denotL ns' k0 = denotL ns k0 :=
  denotAux_cone hs (k0 + 1) k0 hag

/-! ## Top-level `compute` specification -/

lemma compute_oob {g : CompGraph T} {i : Nat} (hi : g.nodes.length ≤ i) :
    compute g i = .error (.panic msgIndexOob) := by
  have hg : g.nodes[i]? = none := List.getElem?_eq_none_iff.2 hi
  simp only [compute, calculate_node, calculate_loop, hg]

/-- Top-level evaluator specification on well-formed graphs: `compute`
propagates the denotation error, or returns the denotational value, caches
consistently, and records each invoked node once in topological order. -/
theorem compute_spec {g : CompGraph T} (hwf : WF g) (i : Nat) :
    (∀ e, denot g i = .error e → compute g i = .error e) ∧
    (∀ v, denot g i = .ok v →
      ∃ ns' tr, compute g i = .ok (⟨ns', g.graph_inputs⟩, v, tr) ∧
        PostCalc g.nodes [i] ns' tr) := by
  by_cases hi : i < g.nodes.length
  · obtain ⟨herr, hok⟩ := calculate_loop_spec (g.nodes.length + 1) g.nodes [i]
      hwf.inputs_lt hwf.cache_inv hwf.anc_cached (by omega)
      (by intro j hj; simp at hj; omega)
    constructor
    · intro e he
      have hmap : mapME (denotL g.nodes) [i] = .error e := by
        simp only [mapME]
        rw [show denotL g.nodes i = Except.error e from he]
      have hloop := herr e hmap
      simp only [compute, calculate_node, hloop]
    · intro v hv
      have hv' : denotL g.nodes i = .ok v := hv
      have hmap : mapME (denotL g.nodes) [i] = .ok [v] := by
        simp only [mapME]
        rw [hv']
      obtain ⟨ns', tr, hrun, hpc⟩ := hok [v] hmap
      have hcache : cacheOfL ns' i = some v := by
        cases hcc : cacheOfL g.nodes i with
        | some u =>
          have hd := hwf.cache_inv i u hcc
          rw [hv'] at hd
          injection hd with hd2
          rw [hd2]
          exact hpc.keep i u hcc
        | none =>
          obtain ⟨w, hw, hcw⟩ := hpc.fill i hcc ⟨i, by simp, .refl _⟩
          rw [hv'] at hw
          injection hw with hw2
          rw [hw2]
          exact hcw
      have hcol : collect_values ns' [i] = .ok [v] := by
        cases hg' : ns'[i]? with
        | none => rw [cacheOfL_oob hg'] at hcache; cases hcache
        | some nd' =>
          rw [cacheOfL_eq hg'] at hcache
          simp [collect_values, mapME, hg', hcache]
      have hnode : calculate_node (g.nodes.length + 1) g.nodes [i] head_op =
          .ok (ns', v, tr) := by
        simp only [calculate_node, hrun, hcol, head_op]
      refine ⟨ns', tr, ?_, hpc⟩
      simp only [compute, hnode]
  · have hg : g.nodes[i]? = none := List.getElem?_eq_none_iff.2 (by omega)
    constructor
    · intro e he
      have he' : denotL g.nodes i = .error e := he
      rw [denotL_oob hg] at he'
      injection he' with he2
      rw [← he2]
      exact compute_oob (by omega)
    · intro v hv
      rw [denot, denotL_oob hg] at hv
      cases hv

/-! ## Well-formedness is established and preserved by every public operation -/

lemma wfUpL_of_inputsOfL {ns : List (Node T)}
    (h : ∀ k j, j ∈ inputsOfL ns k → j < k) : WFUpL ns :=
  fun i nd hg j hj => h i j (by rw [inputsOfL_eq hg]; exact hj)

lemma depsUpL_of_depsOfL {ns : List (Node T)}
    (h : ∀ k j, j ∈ depsOfL ns k → k < j ∧ j < ns.length) : DepsUpL ns :=
  fun i nd hg j hj => h i j (by rw [depsOfL_eq hg]; exact hj)

lemma wf_new : WF (new : CompGraph T) := by
  refine ⟨?_, ?_, ?_, ?_, ?_, ?_, ?_, ?_⟩
  · intro i nd h j hj
    simp [new] at h
  · intro i nd h j hj
    simp [new] at h
  · intro i j hi hj
    simp [new] at hi
  · intro p hp
    simp [new] at hp
  · intro i v h
    simp [new, cacheOfL] at h
  · intro i v h j hj
    simp [new, cacheOfL] at h
  · intro i vs
    simp only [new, opOfL]
    intro hcon
    simp at hcon
  · intro i nd h vs e hcon
    simp [new] at h

lemma wf_add_node {g g' : CompGraph T} {inputs : List Nat}
    {op : List T → Except EvalErr T} {id : Nat} (hwf : WF g)
    (hnf : ∀ vs, op vs ≠ .error .fuel)
    (hoe : ∀ vs e, op vs = .error e → e = .panic msgInputNode)
    (h : add_node g inputs op = .ok (g', id)) : WF g' := by
  obtain ⟨hid, hgi, hlen, hb, hnew, hold, hdeps⟩ := add_node_ok_spec h
  have hinew : inputsOfL g'.nodes id = inputs := by rw [inputsOfL_eq hnew]
  have hiofl : ∀ k, inputsOfL g'.nodes k =
      if k = id then inputs else inputsOfL g.nodes k := by
    intro k
    rcases eq_or_ne k id with rfl | hne
    · rw [if_pos rfl, hinew]
    · rw [if_neg hne]
      rcases Nat.lt_or_ge k g.nodes.length with hlt | hge
      · exact (hold k hlt).2.2.1
      · have h1 : g'.nodes[k]? = none := by
          rw [List.getElem?_eq_none_iff]
          omega
        have h2 : g.nodes[k]? = none := by
          rw [List.getElem?_eq_none_iff]
          omega
        simp [inputsOfL, h1, h2]
  have hagr : ∀ j, j < g.nodes.length →
      DenotAgree (g'.nodes[j]?) (g.nodes[j]?) := by
    intro j hj
    cases hgj : g.nodes[j]? with
    | none =>
      rw [List.getElem?_eq_none_iff] at hgj
      omega
    | some ndj =>
      cases hgj' : g'.nodes[j]? with
      | none => exact absurd hgj' (hold j hj).1
      | some ndj' =>
        refine ⟨?_, ?_, ?_⟩
        · have hq := (hold j hj).2.1
          rw [cacheOfL_eq hgj', cacheOfL_eq hgj] at hq
          exact hq
        · have hq := (hold j hj).2.2.1
          rw [inputsOfL_eq hgj', inputsOfL_eq hgj] at hq
          exact hq
        · have hq := (hold j hj).2.2.2
          rw [opOfL_eq hgj', opOfL_eq hgj] at hq
          exact hq
  refine ⟨?_, ?_, ?_, ?_, ?_, ?_, ?_, ?_⟩
  · apply wfUpL_of_inputsOfL
    intro k j hj
    rw [hiofl k] at hj
    rcases eq_or_ne k id with rfl | hne
    · rw [if_pos rfl] at hj
      have := hb j hj
      omega
    · rw [if_neg hne] at hj
      exact lt_of_mem_inputs hwf.inputs_lt hj
  · apply depsUpL_of_depsOfL
    intro k j hj
    rw [hdeps k j] at hj
    rcases hj with hj | ⟨heq, hk⟩
    · cases hgk : g.nodes[k]? with
      | none => simp [depsOfL, hgk] at hj
      | some ndk =>
        rw [depsOfL_eq hgk] at hj
        have := hwf.deps_gt k ndk hgk j hj
        omega
    · have := hb k hk
      omega
  · intro a b ha hb'
    rw [hdeps a b, hiofl b]
    rcases eq_or_ne b id with rfl | hbne
    · rw [if_pos rfl]
      constructor
      · rintro (h' | ⟨_, h'⟩)
        · exfalso
          cases hga : g.nodes[a]? with
          | none => simp [depsOfL, hga] at h'
          | some nda =>
            rw [depsOfL_eq hga] at h'
            have := hwf.deps_gt a nda hga _ h'
            omega
        · exact h'
      · intro h'
        exact Or.inr ⟨rfl, h'⟩
    · rw [if_neg hbne]
      have hb2 : b < g.nodes.length := by omega
      rcases Nat.lt_or_ge a g.nodes.length with halt | hage
      · rw [← hwf.edges a b halt hb2]
        constructor
        · rintro (h' | ⟨heq, _⟩)
          · exact h'
          · exact absurd heq hbne
        · intro h'
          exact Or.inl h'
      · have hda : depsOfL g.nodes a = [] := by
          have hnone : g.nodes[a]? = none := by
            rw [List.getElem?_eq_none_iff]
            omega
          simp [depsOfL, hnone]
        rw [hda]
        constructor
        · rintro (h' | ⟨heq, _⟩)
          · simp at h'
          · exact absurd heq hbne
        · intro h'
          exfalso
          have := lt_of_mem_inputs hwf.inputs_lt h'
          omega
  · intro p hp
    rw [hgi] at hp
    obtain ⟨h1, h2, h3⟩ := hwf.registry p hp
    refine ⟨by omega, ?_, ?_⟩
    · rw [hiofl, if_neg (by omega)]
      exact h2
    · intro vs
      rw [(hold p.2 h1).2.2.2]
      exact h3 vs
  · intro k v hk
    have hkv : k < g.nodes.length := by
      by_contra hge
      rcases eq_or_ne k id with rfl | hne
      · rw [cacheOfL_eq hnew] at hk
        cases hk
      · have hh : g'.nodes[k]? = none := by
          rw [List.getElem?_eq_none_iff]
          omega
        rw [cacheOfL_oob hh] at hk
        cases hk
    have hkold : cacheOfL g.nodes k = some v := by
      rw [← (hold k hkv).2.1]
      exact hk
    have hde : denotL g'.nodes k = denotL g.nodes k := by
      rw [denotL, denotL]
      exact denotAux_frameA hwf.inputs_lt hagr (k + 1) k hkv
    rw [hde]
    exact hwf.cache_inv k v hkold
  · intro k v hk j hj
    have hkv : k < g.nodes.length := by
      by_contra hge
      rcases eq_or_ne k id with rfl | hne
      · rw [cacheOfL_eq hnew] at hk
        cases hk
      · have hh : g'.nodes[k]? = none := by
          rw [List.getElem?_eq_none_iff]
          omega
        rw [cacheOfL_oob hh] at hk
        cases hk
    rw [hiofl k, if_neg (by omega)] at hj
    have hkold : cacheOfL g.nodes k = some v := by
      rw [← (hold k hkv).2.1]
      exact hk
    obtain ⟨w, hw⟩ := hwf.anc_cached k v hkold j hj
    have hjlt : j < g.nodes.length := by
      have := lt_of_mem_inputs hwf.inputs_lt hj
      omega
    exact ⟨w, by rw [(hold j hjlt).2.1]; exact hw⟩
  · intro k vs
    rcases eq_or_ne k id with rfl | hne
    · rw [opOfL_eq hnew]
      exact hnf vs
    · rcases Nat.lt_or_ge k g.nodes.length with hlt | hge
      · rw [(hold k hlt).2.2.2]
        exact hwf.no_fuel_op k vs
      · have hh : g'.nodes[k]? = none := by
          rw [List.getElem?_eq_none_iff]
          omega
        simp only [opOfL, hh]
        intro hcon
        simp at hcon
  · intro k nd' hk vs e hcon
    rcases eq_or_ne k id with rfl | hne
    · rw [hnew] at hk
      cases hk
      exact hoe vs e hcon
    · have hklt : k < g.nodes.length := by
        by_contra hge
        have hh : g'.nodes[k]? = none := by
          rw [List.getElem?_eq_none_iff]
          omega
        rw [hh] at hk
        cases hk
      cases hgk : g.nodes[k]? with
      | none =>
        rw [List.getElem?_eq_none_iff] at hgk
        omega
      | some ndk =>
        have hopk := (hold k hklt).2.2.2
        rw [opOfL_eq hk, opOfL_eq hgk] at hopk
        rw [hopk] at hcon
        exact hwf.ops_err k ndk hgk vs e hcon

/-- Transfer of the structural `WF` fields along a shape-preserving step. -/
lemma wf_of_shape {g g' : CompGraph T} (hwf : WF g)
    (hs : SameShape g.nodes g'.nodes) (hreg : g'.graph_inputs = g.graph_inputs)
    (hci : CacheInvL g'.nodes) (han : AncCachedL g'.nodes) : WF g' := by
  refine ⟨wfUpL_of_sameShape hs hwf.inputs_lt,
    depsUpL_of_sameShape hs hwf.deps_gt, ?_, ?_, hci, han, ?_, ?_⟩
  · intro a b ha hb
    rw [hs.deps_eq, hs.inputs_eq]
    have hl := hs.len_eq
    exact hwf.edges a b (by omega) (by omega)
  · intro p hp
    rw [hreg] at hp
    obtain ⟨h1, h2, h3⟩ := hwf.registry p hp
    have hl := hs.len_eq
    refine ⟨by omega, by rw [hs.inputs_eq]; exact h2, ?_⟩
    intro vs
    rw [hs.op_eq]
    exact h3 vs
  · intro k vs
    rw [hs.op_eq]
    exact hwf.no_fuel_op k vs
  · intro k nd' hk vs e hcon
    have hklt : k < g.nodes.length := by
      have hl := hs.len_eq
      have := lt_of_get_some hk
      omega
    cases hgk : g.nodes[k]? with
    | none =>
      rw [List.getElem?_eq_none_iff] at hgk
      omega
    | some ndk =>
      have hopk := hs.op_eq k
      rw [opOfL_eq hk, opOfL_eq hgk] at hopk
      rw [hopk] at hcon
      exact hwf.ops_err k ndk hgk vs e hcon

lemma wf_set_input {g g' : CompGraph T} {name : String} {v : T} (hwf : WF g)
    (h : set_input g name v = .ok g') : WF g' := by
  cases hl : lookup_input g name with
  | none =>
    rw [set_input_unknown hl] at h
    cases h
  | some id =>
    obtain ⟨p, hp, hp2⟩ := lookup_input_mem hl
    obtain ⟨hid, hinp, hop⟩ := hwf.registry p hp
    rw [hp2] at hid hinp hop
    obtain ⟨gset, hset, hgi, hshape, hcachev, hdep, hframe⟩ :=
      set_input_ok_spec (v := v) hwf.deps_gt hl hid
    rw [hset] at h
    injection h with hgg
    subst hgg
    have hlen : gset.nodes.length = g.nodes.length := hshape.len_eq
    have hci : CacheInvL gset.nodes := by
      intro k w hk
      rcases eq_or_ne k id with heq | hne
      · subst heq
        rw [hcachev] at hk
        cases hk
        cases hgid : gset.nodes[k]? with
        | none =>
          rw [cacheOfL_oob hgid] at hcachev
          cases hcachev
        | some nd' =>
          have hinp' : nd'.node_inputs = [] := by
            have hq := hshape.inputs_eq k
            rw [inputsOfL_eq hgid, hinp] at hq
            exact hq
          have hop' : nd'.op [] = .error (.panic msgInputNode) := by
            have hq := hshape.op_eq k
            rw [opOfL_eq hgid] at hq
            rw [hq]
            exact hop []
          have hc' : nd'.cache = some v := by
            rw [cacheOfL_eq hgid] at hcachev
            exact hcachev
          rw [denotL_unfold (wfUpL_of_sameShape hshape hwf.inputs_lt) hgid, hinp']
          simp [hop', hc']
      · have hkr : ¬ DepsReach g.nodes id k := by
          intro hr
          rw [hdep k hne hr] at hk
          cases hk
        have hkold : cacheOfL g.nodes k = some w := by
          rw [← hframe k hne hkr]
          exact hk
        have hklen : k < g.nodes.length := cacheOfL_some_lt hkold
        have hcone : ∀ m, InputsReach g.nodes k m →
            cacheOfL gset.nodes m = cacheOfL g.nodes m := by
          intro m hm
          have hmd : DepsReach g.nodes m k := inputsReach_to_depsReach hwf hklen hm
          have hmne : m ≠ id := by
            rintro rfl
            exact hkr hmd
          have hmnr : ¬ DepsReach g.nodes id m := by
            intro hr
            exact hkr (depsReach_trans hr hmd)
          exact hframe m hmne hmnr
        rw [denotL_cone hshape hcone]
        exact hwf.cache_inv k w hkold
    have han : AncCachedL gset.nodes := by
      intro k w hk j hj
      rw [hshape.inputs_eq] at hj
      rcases eq_or_ne k id with heq | hne
      · subst heq
        rw [hinp] at hj
        cases hj
      · have hkr : ¬ DepsReach g.nodes id k := by
          intro hr
          rw [hdep k hne hr] at hk
          cases hk
        have hkold : cacheOfL g.nodes k = some w := by
          rw [← hframe k hne hkr]
          exact hk
        have hklen : k < g.nodes.length := cacheOfL_some_lt hkold
        obtain ⟨wj, hwj⟩ := hwf.anc_cached k w hkold j hj
        have hjlt : j < k := lt_of_mem_inputs hwf.inputs_lt hj
        have hstep : DepsReach g.nodes j k :=
          .tail (.refl j) ((hwf.edges j k (by omega) (by omega)).2 hj)
        have hjne : j ≠ id := by
          rintro rfl
          exact hkr hstep
        have hjnr : ¬ DepsReach g.nodes id j := by
          intro hr
          exact hkr (depsReach_trans hr hstep)
        exact ⟨wj, by rw [hframe j hjne hjnr]; exact hwj⟩
    exact wf_of_shape hwf hshape hgi hci han

lemma wf_compute {g g' : CompGraph T} {i : Nat} {v : T} {tr : List Nat}
    (hwf : WF g) (h : compute g i = .ok (g', v, tr)) :
    WF g' ∧ g'.graph_inputs = g.graph_inputs ∧
    PostCalc g.nodes [i] g'.nodes tr ∧ denot g i = .ok v := by
  obtain ⟨herr, hok⟩ := compute_spec hwf i
  cases hd : denot g i with
  | error e =>
    rw [herr e hd] at h
    cases h
  | ok v' =>
    obtain ⟨ns', tr', hrun, hpc⟩ := hok v' hd
    rw [hrun] at h
    injection h with h1
    injection h1 with h2 h3
    injection h3 with h4 h5
    subst h2
    subst h4
    subst h5
    refine ⟨?_, rfl, hpc, rfl⟩
    exact wf_of_shape hwf hpc.shape rfl (hpc.cacheInv hwf.cache_inv)
      (hpc.ancCached hwf.anc_cached)

/-- Every graph reachable through the public API is well-formed: this is in
particular the acyclicity-by-construction invariant (claim C9) and the
no-stale-cache invariant (claim C3). -/
theorem reachable_wf {g : CompGraph T} (h : Reachable g) : WF g := by
  induction h with
  | base => exact wf_new
  | add_node_step hr hstep ih =>
    exact wf_add_node ih (by intro vs hcon; cases hcon)
      (by intro vs e hcon; cases hcon) hstep
  | add_input_step hr hstep ih =>
    rename_i g0 g' name id
    simp only [add_input_node] at hstep
    cases ha : add_node g0 [] input_op with
    | error e =>
      rw [ha] at hstep
      cases hstep
    | ok p =>
      obtain ⟨g1, id1⟩ := p
      rw [ha] at hstep
      cases hstep
      have hwf1 : WF g1 := wf_add_node ih (by intro vs hcon; cases hcon)
        (by intro vs e hcon; injection hcon with h2; exact h2.symm) ha
      obtain ⟨hid, hgi, hlen, _, hnew, _, _⟩ := add_node_ok_spec ha
      refine ⟨hwf1.inputs_lt, hwf1.deps_gt, hwf1.edges, ?_, hwf1.cache_inv,
        hwf1.anc_cached, hwf1.no_fuel_op, hwf1.ops_err⟩
      intro q hq
      rcases List.mem_cons.1 hq with heq | hq'
      · subst heq
        refine ⟨lt_of_get_some hnew, by rw [inputsOfL_eq hnew], ?_⟩
        intro vs
        rw [opOfL_eq hnew]
        rfl
      · exact hwf1.registry q hq'
  | set_input_step hr hstep ih => exact wf_set_input ih hstep
  | compute_step hr hstep ih => exact (wf_compute ih hstep).1


/-! ## Failures under the public API are panics -/

/-- On a well-formed graph, an in-range node whose denotation fails can only
fail with the input-node panic: the panic raised when evaluation reaches an
input node whose value was never supplied. -/
lemma denot_err_msg {g : CompGraph T} (hwf : WF g) :
    ∀ i, i < g.nodes.length → ∀ e, denot g i = .error e → e = .panic msgInputNode := by
  intro i
  induction i using Nat.strong_induction_on with
  | _ i ih =>
    intro hi e he
    have he' : denotL g.nodes i = .error e := he
    cases hg : g.nodes[i]? with
    | none =>
      rw [List.getElem?_eq_none_iff] at hg
      omega
    | some nd =>
      cases hm : mapME (denotL g.nodes) nd.node_inputs with
      | error e1 =>
        have hds := denotL_stale_err hwf.inputs_lt hg hm
        rw [hds] at he'
        injection he' with h2
        obtain ⟨j, hj, hje⟩ := mapME_error_mem hm
        have hji : j < i := hwf.inputs_lt i nd hg j hj
        rw [← h2]
        exact ih j hji (by omega) e1 hje
      | ok ws =>
        cases hc : nd.cache with
        | none =>
          have hds := denotL_stale_op hwf.inputs_lt hg hc hm
          rw [hds] at he'
          exact hwf.ops_err i nd hg ws e he'
        | some v =>
          have hcv := hwf.cache_inv i v (by rw [cacheOfL_eq hg]; exact hc)
          rw [hcv] at he'
          cases he'

/-! ## `set_input` through the registry, with proper-dependence framing -/

/-- The id a registered name resolves to is always in range. -/
lemma set_input_id_lt {g : CompGraph T} (hwf : WF g) {name : String} {id : Nat}
    (hl : lookup_input g name = some id) : id < g.nodes.length := by
  obtain ⟨p, hp, hpid⟩ := lookup_input_mem hl
  have := (hwf.registry p hp).1
  omega

/-- On a well-formed graph, proper transitive dependence is dependent-edge
reachability from a distinct node. -/
lemma properDep_iff {g : CompGraph T} (hwf : WF g) {id : Nat}
    (hid : id < g.nodes.length) (j : Nat) :
    ProperDep g.nodes id j ↔ (j ≠ id ∧ DepsReach g.nodes id j) := by
  constructor
  · rintro ⟨d, hd, hr⟩
    have hdd : id < d ∧ d < g.nodes.length := by
      cases hgd : g.nodes[id]? with
      | none =>
        rw [List.getElem?_eq_none_iff] at hgd
        omega
      | some nd =>
        apply hwf.deps_gt id nd hgd d
        rw [← depsOfL_eq hgd]
        exact hd
    have hdj := depsReach_lt hwf.deps_gt hdd.2 hr
    exact ⟨by omega, depsReach_trans (.tail (.refl id) hd) hr⟩
  · rintro ⟨hne, hr⟩
    rcases depsReach_head_cases hr with heq | ⟨d, hd, hr2⟩
    · exact absurd heq hne
    · exact ⟨d, hd, hr2⟩

/-- `set_input` on a registered name always succeeds: the input's cache
becomes the new value, proper transitive dependents are cleared, and every
other node's cache is exactly unchanged. -/
lemma set_input_reach_spec {g : CompGraph T} (hwf : WF g) {name : String}
    {id : Nat} (hl : lookup_input g name = some id) (v : T) :
    ∃ g', set_input g name v = .ok g' ∧
      cacheOf g' id = some v ∧
      (∀ j, ProperDep g.nodes id j → cacheOf g' j = none) ∧
      (∀ j, j ≠ id → ¬ ProperDep g.nodes id j → cacheOf g' j = cacheOf g j) := by
  have hid := set_input_id_lt hwf hl
  obtain ⟨g', hrun, hgi, hshape, hcv, hclear, hkeep⟩ :=
    set_input_ok_spec hwf.deps_gt hl hid
  refine ⟨g', hrun, hcv, ?_, ?_⟩
  · intro j hp
    rw [properDep_iff hwf hid] at hp
    exact hclear j hp.1 hp.2
  · intro j hne hnp
    apply hkeep j hne
    intro hr
    exact hnp ((properDep_iff hwf hid j).2 ⟨hne, hr⟩)

/-! ## Concrete example graphs built through the public API -/

/-- Pure sum function used by the example graphs. -/
def fSum : List Int → Int := fun vs => vs.foldr (fun a b => a + b) 0

/-- The pure sum operation as stored by `add_node`. -/
def opS : List Int → Except EvalErr Int := fun vs => .ok (fSum vs)

/-- One registered input `"x"`, not yet set. -/
def gd1 : CompGraph Int := ⟨[⟨none, [], [], input_op⟩], [("x", 0)]⟩

/-- `gd1` with `"x"` set to `5`. -/
def gd2 : CompGraph Int := ⟨[⟨some 5, [], [], input_op⟩], [("x", 0)]⟩

/-- `gd2` plus a sum node over `[0]`. -/
def gd3 : CompGraph Int :=
  ⟨[⟨some 5, [], [1], input_op⟩, ⟨none, [0], [], opS⟩], [("x", 0)]⟩

/-- `gd3` plus a second sum node over `[0]`. -/
def gd4 : CompGraph Int :=
  ⟨[⟨some 5, [], [1, 2], input_op⟩, ⟨none, [0], [], opS⟩, ⟨none, [0], [], opS⟩],
    [("x", 0)]⟩

/-- The diamond: input `0`, middle nodes `1` and `2` both over `[0]`, and
top node `3` over `[1, 2]`. -/
def gd5 : CompGraph Int :=
  ⟨[⟨some 5, [], [1, 2], input_op⟩, ⟨none, [0], [3], opS⟩, ⟨none, [0], [3], opS⟩,
    ⟨none, [1, 2], [], opS⟩], [("x", 0)]⟩

/-- The diamond after `compute 3`: every cache populated. -/
def gd6 : CompGraph Int :=
  ⟨[⟨some 5, [], [1, 2], input_op⟩, ⟨some 5, [0], [3], opS⟩, ⟨some 5, [0], [3], opS⟩,
    ⟨some 10, [1, 2], [], opS⟩], [("x", 0)]⟩

/-- Registered input `"x"` never set, with a sum node over it. -/
def gu1 : CompGraph Int :=
  ⟨[⟨none, [], [1], input_op⟩, ⟨none, [0], [], opS⟩], [("x", 0)]⟩

/-- One registered input `"x"` set to `1`. -/
def gx1 : CompGraph Int := ⟨[⟨some 1, [], [], input_op⟩], [("x", 0)]⟩

/-- `gx1` after re-setting `"x"` to `2`. -/
def gx2 : CompGraph Int := ⟨[⟨some 2, [], [], input_op⟩], [("x", 0)]⟩

lemma gd1_step : add_input_node (new : CompGraph Int) "x" = .ok (gd1, 0) := rfl

lemma gd2_step : set_input gd1 "x" (5 : Int) = .ok gd2 := rfl

lemma gd3_step : add_node gd2 [0] (fun vs => Except.ok (fSum vs)) = .ok (gd3, 1) := rfl

lemma gd4_step : add_node gd3 [0] (fun vs => Except.ok (fSum vs)) = .ok (gd4, 2) := rfl

lemma gd5_step : add_node gd4 [1, 2] (fun vs => Except.ok (fSum vs)) = .ok (gd5, 3) := rfl

lemma gd6_step : compute gd5 3 = .ok (gd6, 10, [1, 2, 3]) := by
  simp [compute, calculate_node, calculate_loop, collect_values, mapME, head_op,
    gd5, gd6, opS, fSum]

lemma gu1_step : add_node gd1 [0] (fun vs => Except.ok (fSum vs)) = .ok (gu1, 1) := rfl

lemma gx1_step : set_input gd1 "x" (1 : Int) = .ok gx1 := rfl

lemma gx2_step : set_input gx1 "x" (2 : Int) = .ok gx2 := rfl

lemma gd1_reach : Reachable gd1 := .add_input_step .base gd1_step

lemma gd2_reach : Reachable gd2 := .set_input_step gd1_reach gd2_step

lemma gd3_reach : Reachable gd3 := .add_node_step gd2_reach gd3_step

lemma gd4_reach : Reachable gd4 := .add_node_step gd3_reach gd4_step

lemma gd5_reach : Reachable gd5 := .add_node_step gd4_reach gd5_step

lemma gd6_reach : Reachable gd6 := .compute_step gd5_reach gd6_step

lemma gu1_reach : Reachable gu1 := .add_node_step gd1_reach gu1_step

lemma gx1_reach : Reachable gx1 := .set_input_step gd1_reach gx1_step

/-! ## The claims -/

/-- C1: on a graph built through the public API, when the inputs of node `i`
all evaluate (to `vs`, in declared order) and the node's own operation maps
`vs` to `v`, `compute g i` succeeds and returns exactly `v`; moreover the
invocation trace is topologically ordered — no node invoked later is a
declared input of one invoked earlier, so every ancestor is fully evaluated
before any dependent reads it. -/
theorem c1_compute_applies_op {g : CompGraph T} {i : Nat}
    (hreach : Reachable g) {vs : List T} {v : T}
    (hvs : mapME (denot g) (inputsOf g i) = .ok vs)
    (hv : opOf g i vs = .ok v) :
    ∃ g' tr, compute g i = .ok (g', v, tr) ∧
      tr.Pairwise (fun a b => b ∉ inputsOf g a) := by
  have hwf := reachable_wf hreach
  cases hg : g.nodes[i]? with
  | none =>
    rw [opOf, opOfL, hg] at hv
    cases hv
  | some nd =>
    have hd : denot g i = .ok v := by
      have hvs' : mapME (denotL g.nodes) nd.node_inputs = .ok vs := by
        rw [← inputsOfL_eq hg]
        exact hvs
      have hv' : nd.op vs = .ok v := by
        rw [← opOfL_eq hg]
        exact hv
      show denotL g.nodes i = .ok v
      rw [denotL_unfold hwf.inputs_lt hg]
      cases hin : nd.node_inputs with
      | nil =>
        rw [hin] at hvs'
        simp only [mapME] at hvs'
        cases hvs'
        rw [hv']
      | cons a as =>
        rw [hin] at hvs'
        simp [hvs', hv']
    obtain ⟨ns', tr, hrun, hpc⟩ := (compute_spec hwf i).2 v hd
    exact ⟨⟨ns', g.graph_inputs⟩, tr, hrun, hpc.topo⟩

/-- C1 witness: the diamond queried at its top node returns `5 + 5 = 10`. -/
theorem c1_witness :
    Reachable gd5 ∧
    mapME (denot gd5) (inputsOf gd5 3) = .ok [5, 5] ∧
    opOf gd5 3 [5, 5] = .ok 10 ∧
    ∃ g' tr, compute gd5 3 = .ok (g', 10, tr) ∧
      tr.Pairwise (fun a b => b ∉ inputsOf gd5 a) := by
  have hm : mapME (denot gd5) (inputsOf gd5 3) = .ok [5, 5] := by
    simp [mapME, denot, denotL, denotAux, denotListAux, gd5, opS, fSum, input_op,
      inputsOf, inputsOfL]
  have hop : opOf gd5 3 [5, 5] = .ok 10 := rfl
  exact ⟨gd5_reach, hm, hop, c1_compute_applies_op gd5_reach hm hop⟩

/-- C2: `compute` on a node whose cache is populated returns the cached
value with the graph state exactly unchanged and an empty invocation trace:
no node's function is re-invoked, no side effect occurs. -/
theorem c2_memoized {g : CompGraph T} {i : Nat} {v : T}
    (hc : cacheOf g i = some v) :
    compute g i = .ok (g, v, []) := by
  cases hg : g.nodes[i]? with
  | none =>
    rw [cacheOf, cacheOfL_oob hg] at hc
    cases hc
  | some nd =>
    rw [cacheOf, cacheOfL_eq hg] at hc
    simp only [compute, calculate_node, calculate_loop, hg, hc, collect_values,
      mapME, head_op]

/-- C2 witness: the computed diamond returns its cached `10` unchanged. -/
theorem c2_witness :
    cacheOf gd6 3 = some 10 ∧ compute gd6 3 = .ok (gd6, 10, []) :=
  ⟨rfl, c2_memoized rfl⟩

/-- C3: no-stale-value invariant — in every graph state reachable through
the public API, a cache holding `some v` means `v` is exactly the node's
denotational value: its function applied along the declared edges to the
currently set input values.  Every public operation preserves this. -/
theorem c3_no_stale {g : CompGraph T} (hreach : Reachable g) :
    ∀ i v, cacheOf g i = some v → denot g i = .ok v :=
  fun i v hc => (reachable_wf hreach).cache_inv i v hc

/-- C3 witness: in the computed diamond, node 1's cached `5` is its
denotational value. -/
theorem c3_witness :
    Reachable gd6 ∧ cacheOf gd6 1 = some 5 ∧ denot gd6 1 = .ok 5 :=
  ⟨gd6_reach, rfl, c3_no_stale gd6_reach 1 5 rfl⟩

/-- C4 counterexample: re-setting the already-set input `"x"` changes the
cache field of node 0 — the input node itself — although node 0 is not
transitively dependent on the set input; the claimed frame condition
("every node not transitively dependent on it has its cache field exactly
unchanged") fails at the input node, whose cache moves from `some 1` to
`some 2`. -/
theorem c4_counterexample :
    set_input gx1 "x" 2 = .ok gx2 ∧
    ¬ ProperDep gx1.nodes 0 0 ∧
    cacheOf gx2 0 ≠ cacheOf gx1 0 := by
  refine ⟨gx2_step, ?_, by decide⟩
  rintro ⟨d, hd, hr⟩
  have hdem : depsOfL gx1.nodes 0 = [] := rfl
  rw [hdem] at hd
  cases hd

/-- C4 (amended): after a successful `set_input`, the input node's own cache
becomes `some v` (the new value — not unchanged, not `None`), every node
properly transitively dependent on the input has its cache cleared, and
every other node's cache is exactly unchanged. -/
theorem c4_amended_set_input {g g' : CompGraph T} {name : String} {v : T}
    {id : Nat} (hreach : Reachable g)
    (hl : lookup_input g name = some id)
    (hset : set_input g name v = .ok g') :
    cacheOf g' id = some v ∧
    (∀ j, ProperDep g.nodes id j → cacheOf g' j = none) ∧
    (∀ j, j ≠ id → ¬ ProperDep g.nodes id j → cacheOf g' j = cacheOf g j) := by
  obtain ⟨g2, hrun, hcv, hclear, hkeep⟩ :=
    set_input_reach_spec (reachable_wf hreach) hl v
  rw [hset] at hrun
  injection hrun with h2
  subst h2
  exact ⟨hcv, hclear, hkeep⟩

/-- C4 witness: re-setting `"x"` from `1` to `2` in the one-node graph. -/
theorem c4_witness :
    Reachable gx1 ∧ lookup_input gx1 "x" = some 0 ∧
    set_input gx1 "x" 2 = .ok gx2 ∧
    cacheOf gx2 0 = some 2 ∧
    (∀ j, j ≠ 0 → ¬ ProperDep gx1.nodes 0 j → cacheOf gx2 j = cacheOf gx1 j) := by
  obtain ⟨h1, h2, h3⟩ := c4_amended_set_input gx1_reach
    (show lookup_input gx1 "x" = some 0 from rfl) gx2_step
  exact ⟨gx1_reach, rfl, gx2_step, h1, h3⟩

/-- C5 counterexample: computing a node whose input was never supplied hits
the input node's `unreachable!` closure and fails with the
`"should not be called on input node"` panic — not a typed unset-input
error — and `set_input` on the unregistered name `"y"` fails with the
`expect` panic `"no such input"` — not a typed unknown-name error. -/
theorem c5_counterexample :
    compute gu1 1 = .error (.panic msgInputNode) ∧
    set_input gu1 "y" 3 = .error (.panic msgNoSuchInput) := by
  constructor
  · simp [compute, calculate_node, calculate_loop, collect_values, mapME,
      head_op, gu1, input_op]
  · rfl

/-- C5 (amended): both failures surface as panics, never as recoverable
typed errors — on a reachable graph, `set_input` with an unregistered name
fails with the `"no such input"` panic, and an in-range `compute` whose
evaluation fails always fails with the `"should not be called on input
node"` panic raised when an unset input node's operation is invoked. -/
theorem c5_amended_panics {g : CompGraph T} (hreach : Reachable g) :
    (∀ (name : String) (v : T), lookup_input g name = none →
      set_input g name v = .error (.panic msgNoSuchInput)) ∧
    (∀ i e, i < g.nodes.length → denot g i = .error e →
      compute g i = .error (.panic msgInputNode)) := by
  have hwf := reachable_wf hreach
  refine ⟨fun name v hl => set_input_unknown hl, ?_⟩
  intro i e hi he
  have hmsg := denot_err_msg hwf i hi e he
  subst hmsg
  exact (compute_spec hwf i).1 _ he

/-- C5 witness: the unset-input graph panics both ways. -/
theorem c5_witness :
    Reachable gu1 ∧ lookup_input gu1 "y" = none ∧ 1 < gu1.nodes.length ∧
    denot gu1 1 = .error (.panic msgInputNode) ∧
    set_input gu1 "y" 3 = .error (.panic msgNoSuchInput) ∧
    compute gu1 1 = .error (.panic msgInputNode) := by
  have hden : denot gu1 1 = .error (.panic msgInputNode) := by
    simp [denot, denotL, denotAux, denotListAux, gu1, input_op]
  exact ⟨gu1_reach, rfl, by decide, hden,
    (c5_amended_panics gu1_reach).1 "y" 3 rfl,
    (c5_amended_panics gu1_reach).2 1 _ (by decide) hden⟩

/-- C6 counterexample: invalidating the diamond's input pops node 3 twice —
once per path through the two middle nodes — so the loop re-processes a
node reachable via multiple paths instead of visiting it exactly once. -/
theorem c6_counterexample :
    (invalidate_node gd5 0).map (fun p => p.2) = .ok [0, 2, 3, 1, 3] ∧
    ([0, 2, 3, 1, 3] : List Nat).count 3 = 2 :=
  ⟨rfl, rfl⟩

/-- C6 (amended): on a reachable graph the invalidation loop terminates and
pops exactly the nodes reachable over dependent edges — but a node reachable
via several paths is popped once per path, not exactly once. -/
theorem c6_amended_invalidate {g : CompGraph T} (hreach : Reachable g)
    {i : Nat} (hi : i < g.nodes.length) :
    ∃ g' pops, invalidate_node g i = .ok (g', pops) ∧
      ∀ j, j ∈ pops ↔ DepsReach g.nodes i j := by
  obtain ⟨g', pops, hrun, hgi, hshape, hcache, hpops⟩ :=
    invalidate_node_ok (reachable_wf hreach).deps_gt hi
  exact ⟨g', pops, hrun, hpops⟩

/-- C6 witness: invalidating the diamond's input succeeds and pops exactly
the dependent-reachable nodes. -/
theorem c6_witness :
    Reachable gd5 ∧ 0 < gd5.nodes.length ∧
    ∃ g' pops, invalidate_node gd5 0 = .ok (g', pops) ∧
      ∀ j, j ∈ pops ↔ DepsReach gd5.nodes 0 j :=
  ⟨gd5_reach, by decide, c6_amended_invalidate gd5_reach (by decide)⟩

/-- C7: within one `compute` call every node's function is invoked at most
once — the invocation trace has no duplicates — and the invoked nodes are
exactly the stale nodes reachable from the queried node along declared
inputs: a shared ancestor cached earlier in the same call (or before it) is
reused by every later branch, never recomputed. -/
theorem c7_shared_once {g g' : CompGraph T} {i : Nat} {v : T} {tr : List Nat}
    (hreach : Reachable g) (hrun : compute g i = .ok (g', v, tr)) :
    tr.Nodup ∧ ∀ j, j ∈ tr ↔ (cacheOf g j = none ∧ InputsReach g.nodes i j) := by
  obtain ⟨hwf', hgi, hpc, hd⟩ := wf_compute (reachable_wf hreach) hrun
  refine ⟨hpc.nodup, fun j => ?_⟩
  rw [hpc.mem_tr j]
  constructor
  · rintro ⟨h1, s, hs, hr⟩
    simp only [List.mem_singleton] at hs
    subst hs
    exact ⟨h1, hr⟩
  · rintro ⟨h1, hr⟩
    exact ⟨h1, i, by simp, hr⟩

/-- C7 witness: computing the diamond's top invokes each of nodes 1, 2, 3
exactly once; the shared input 0 is read from cache. -/
theorem c7_witness :
    Reachable gd5 ∧ compute gd5 3 = .ok (gd6, 10, [1, 2, 3]) ∧
    ([1, 2, 3] : List Nat).Nodup ∧
    (∀ j, j ∈ ([1, 2, 3] : List Nat) ↔
      (cacheOf gd5 j = none ∧ InputsReach gd5.nodes 3 j)) :=
  ⟨gd5_reach, gd6_step, (c7_shared_once gd5_reach gd6_step).1,
    (c7_shared_once gd5_reach gd6_step).2⟩

/-- C8: setting a registered input to a value equal to its currently cached
value still succeeds, leaves the input's cache at that same value, and still
clears the cache of every properly transitively dependent node — the
invalidation never short-circuits on value equality. -/
theorem c8_always_invalidate {g : CompGraph T} {name : String} {id : Nat}
    {v : T} (hreach : Reachable g) (hl : lookup_input g name = some id)
    (hcur : cacheOf g id = some v) :
    ∃ g', set_input g name v = .ok g' ∧ cacheOf g' id = cacheOf g id ∧
      ∀ j, ProperDep g.nodes id j → cacheOf g' j = none := by
  obtain ⟨g', hrun, hcv, hclear, hkeep⟩ :=
    set_input_reach_spec (reachable_wf hreach) hl v
  refine ⟨g', hrun, ?_, hclear⟩
  rw [hcv, hcur]

/-- C8 witness: re-setting `"x"` to its current value `5` in the computed
diamond still clears the dependents. -/
theorem c8_witness :
    Reachable gd6 ∧ lookup_input gd6 "x" = some 0 ∧ cacheOf gd6 0 = some 5 ∧
    ∃ g', set_input gd6 "x" 5 = .ok g' ∧ cacheOf g' 0 = cacheOf gd6 0 ∧
      ∀ j, ProperDep gd6.nodes 0 j → cacheOf g' j = none :=
  ⟨gd6_reach, rfl, rfl, c8_always_invalidate gd6_reach rfl rfl⟩

/-- C9: acyclicity by construction and termination — in every reachable
graph each node's declared inputs have strictly smaller indices than the
node itself, and `compute` never exhausts its fuel: the input-before-node
traversal always terminates, with no runtime cycle check. -/
theorem c9_acyclic_terminates {g : CompGraph T} (hreach : Reachable g) :
    (∀ (i : Nat) (nd : Node T), g.nodes[i]? = some nd →
      ∀ j ∈ nd.node_inputs, j < i) ∧
    ∀ i, compute g i ≠ .error .fuel := by
  have hwf := reachable_wf hreach
  refine ⟨hwf.inputs_lt, ?_⟩
  intro i hcon
  obtain ⟨herr, hok⟩ := compute_spec hwf i
  cases hd : denot g i with
  | error e =>
    rw [herr e hd] at hcon
    injection hcon with h2
    have hd' : denotL g.nodes i = .error .fuel := by
      rw [show denotL g.nodes i = denot g i from rfl, hd, h2]
    exact denotL_ne_fuel hwf.inputs_lt hwf.no_fuel_op i hd'
  | ok v =>
    obtain ⟨ns', tr, hrun, hpc⟩ := hok v hd
    rw [hrun] at hcon
    cases hcon

/-- C9 witness: the diamond's top node declares inputs `[1, 2]`, both below
`3`, and computing it does not exhaust fuel. -/
theorem c9_witness :
    Reachable gd5 ∧ gd5.nodes[3]? = some ⟨none, [1, 2], [], opS⟩ ∧
    (∀ j ∈ ([1, 2] : List Nat), j < 3) ∧
    compute gd5 3 ≠ .error .fuel :=
  ⟨gd5_reach, rfl, (c9_acyclic_terminates gd5_reach).1 3 _ rfl,
    (c9_acyclic_terminates gd5_reach).2 3⟩

/-- C10: the only id validation is slice bounds-checking — an id at or past
the arena length makes `add_node`, `invalidate_node` and `compute` fail with
the index-out-of-bounds panic (and `add_node` never fails any other way, in
particular never with a typed invalid-reference error), while any list of
in-range ids is accepted by `add_node` regardless of where the ids came
from. -/
theorem c10_bounds_only {g : CompGraph T} (i : Nat) (ins2 : List Nat)
    (op : List T → Except EvalErr T)
    (hge : g.nodes.length ≤ i) (hins : ∀ j ∈ ins2, j < g.nodes.length) :
    add_node g [i] op = .error (.panic msgIndexOob) ∧
    (∃ g' id, add_node g ins2 op = .ok (g', id)) ∧
    invalidate_node g i = .error (.panic msgIndexOob) ∧
    compute g i = .error (.panic msgIndexOob) ∧
    (∀ e l, add_node g l op = .error e → e = .panic msgIndexOob) :=
  ⟨add_node_oob ⟨i, by simp, hge⟩, add_node_total hins,
    invalidate_node_oob hge, compute_oob hge, fun e l he => add_node_error he⟩

/-- C10 witness: id `5` is past the two-node arena and rejected by the
bounds check everywhere; the in-range id `0` is accepted. -/
theorem c10_witness :
    gu1.nodes.length ≤ 5 ∧ (∀ j ∈ ([0] : List Nat), j < gu1.nodes.length) ∧
    (add_node gu1 [5] opS = .error (.panic msgIndexOob) ∧
      (∃ g' id, add_node gu1 [0] opS = .ok (g', id)) ∧
      invalidate_node gu1 5 = .error (.panic msgIndexOob) ∧
      compute gu1 5 = .error (.panic msgIndexOob) ∧
      (∀ e l, add_node gu1 l opS = .error e → e = .panic msgIndexOob)) :=
  ⟨by decide, by decide, c10_bounds_only (g := gu1) 5 [0] opS (by decide) (by decide)⟩

end CompGraph3
